import Mathlib

/-!
NASDAQ ITCH VWAP engine: shallow embedding

The definitions below embed `src/vwap.h`, and `processITCH` and the loop of `main` of
`src/vwap.cpp`.

* A `char` is a `Byte` (its 8-bit pattern); `static_cast<unsigned char>` is `Byte.toNat`.
* A pointer `msg + k` into the message buffer is the suffix `msg.drop k`; every read
  returns `Option`, `none` standing for a read past the end of the buffer.
* `uint16_t`, `uint32_t` and `uint64_t` values are `Nat`, reduced `% 2 ^ w` wherever the
  C++ arithmetic can wrap or a cast narrows.
* The four global `unordered_map`s are the fields of `State`; a map is a function into
  `Option`, which is the extensional content of an `unordered_map`.
-/

namespace ITCH

/-- One `char` of the feed, as its 8-bit pattern. -/
abbrev Byte := UInt8

/-- A `std::string`: a sequence of `char`s. -/
abbrev Symbol := List Byte

/-- Source: `struct OrderData`. -/
structure OrderData where
  stock : Symbol
  price : Nat
  side : Byte
  shares : Nat
deriving DecidableEq

/-- Source: `struct TradeRecord`. -/
structure TradeRecord where
  msgType : Byte
  matchID : Nat
  stock : Symbol
  price : Nat
  volume : Nat
  timestamp : Nat
deriving DecidableEq

/-- Source: `struct TradeAggregate`, both fields zero-initialised. -/
structure TradeAggregate where
  volume : Nat := 0
  priceVolume : Nat := 0
deriving DecidableEq

/-- An `unordered_map<K, V>`, by its lookup function. -/
abbrev Map (K V : Type) := K → Option V

/-- The map with no entry. -/
def Map.empty {K V : Type} : Map K V := fun _ => none

/-- Source: `m[k] = v` (insert or overwrite). -/
def Map.insert {K V : Type} [DecidableEq K] (m : Map K V) (k : K) (v : V) : Map K V :=
  fun k' => if k' = k then some v else m k'

/-- Source: `m.erase(k)`. -/
def Map.erase {K V : Type} [DecidableEq K] (m : Map K V) (k : K) : Map K V :=
  fun k' => if k' = k then none else m k'

/-- The four global tables of `vwap.h`. -/
structure State where
  activeOrders : Map Nat OrderData
  executedTrades : Map Symbol (List TradeRecord)
  tradeMatchIDMap : Map Nat TradeRecord
  VWAPaggregator : Map Symbol TradeAggregate

/-- The state at program start: all four tables empty. -/
def State.empty : State :=
  { activeOrders := Map.empty, executedTrades := Map.empty,
    tradeMatchIDMap := Map.empty, VWAPaggregator := Map.empty }

/-- The character `A`. -/
def tagA : Byte := 65
/-- The character `B`. -/
def tagB : Byte := 66
/-- The character `C`. -/
def tagC : Byte := 67
/-- The character `D`. -/
def tagD : Byte := 68
/-- The character `E`. -/
def tagE : Byte := 69
/-- The character `F`. -/
def tagF : Byte := 70
/-- The character `P`. -/
def tagP : Byte := 80
/-- The character `Q`. -/
def tagQ : Byte := 81
/-- The character `U`. -/
def tagU : Byte := 85

/-- Source: `read_2bytes`. -/
def read_2bytes (p : List Byte) : Option Nat := do
  let b0 ← p[0]?
  let b1 ← p[1]?
  some (((b0.toNat <<< 8) % 2 ^ 16) ||| b1.toNat)

/-- Source: `read_4bytes`. -/
def read_4bytes (p : List Byte) : Option Nat := do
  let b0 ← p[0]?
  let b1 ← p[1]?
  let b2 ← p[2]?
  let b3 ← p[3]?
  some (((b0.toNat <<< 24) % 2 ^ 32) ||| ((b1.toNat <<< 16) % 2 ^ 32) |||
        ((b2.toNat <<< 8) % 2 ^ 32) ||| b3.toNat)

/-- The loop of `read_nbytes`: `len` iterations left, `value` accumulated so far. -/
def read_nbytes_loop : List Byte → Nat → Nat → Option Nat
  | _, 0, value => some value
  | [], _ + 1, _ => none
  | b :: p, len + 1, value => read_nbytes_loop p len (((value <<< 8) % 2 ^ 64) ||| b.toNat)

/-- Source: `read_nbytes`. -/
def read_nbytes (p : List Byte) (len : Nat) : Option Nat :=
  read_nbytes_loop p len 0

/-- Source: `std::memcpy(buf, p, n)`: the `n` bytes at `p`. -/
def memcpy (p : List Byte) (n : Nat) : Option (List Byte) :=
  if n ≤ p.length then some (p.take n) else none

/-- Source: `std::string s(buf)` on a NUL-terminated buffer: the bytes before the first NUL. -/
def cstring (buf : List Byte) : Symbol :=
  buf.takeWhile (fun c => c != 0)

/-- Whitespace of the classic locale, as `boost::algorithm::trim` tests it:
space, and the controls `\t \n \v \f \r`. -/
def isSpace (c : Byte) : Bool :=
  c == 32 || (9 ≤ c && c ≤ 13)

/-- Source: `boost::algorithm::trim`: whitespace removed at both ends. -/
def trim (s : Symbol) : Symbol :=
  ((s.dropWhile isSpace).reverse.dropWhile isSpace).reverse

/-- The 8-byte stock field at `p`, as the handlers turn it into a key:
`memcpy` into a 9-byte NUL-terminated buffer, `std::string`, `trim`. -/
def readSymbol (p : List Byte) : Option Symbol := do
  let stockBuf ← memcpy p 8
  some (trim (cstring stockBuf))

/-- Source: `TradeAggregate &agg = VWAPaggregator[sym]`: the entry, zero when absent. -/
def aggOf (st : State) (sym : Symbol) : TradeAggregate :=
  (st.VWAPaggregator sym).getD {}

/-- Source: `executedTrades[sym]`: the history, empty when absent. -/
def histOf (st : State) (sym : Symbol) : List TradeRecord :=
  (st.executedTrades sym).getD []

/-- The common tail of the four trade handlers: `agg.volume += shares`,
`agg.priceVolume += pv` (both 64-bit), `executedTrades[tr.stock].push_back(tr)`,
`tradeMatchIDMap[tr.matchID] = tr`. -/
def recordTrade (st : State) (volAdd pvAdd : Nat) (tr : TradeRecord) : State :=
  { st with
    VWAPaggregator := st.VWAPaggregator.insert tr.stock
      { volume := ((aggOf st tr.stock).volume + volAdd) % 2 ^ 64,
        priceVolume := ((aggOf st tr.stock).priceVolume + pvAdd) % 2 ^ 64 },
    executedTrades := st.executedTrades.insert tr.stock (histOf st tr.stock ++ [tr]),
    tradeMatchIDMap := st.tradeMatchIDMap.insert tr.matchID tr }

/-- Source: `AddOrderMessage` (tags `A` and `F`). -/
def AddOrderMessage (st : State) (msg : List Byte) (msgLen : Nat) (msgType : Byte) :
    Option State :=
  let tooShort : Bool :=
    if msgType = tagA then decide (msgLen < 36)
    else if msgType = tagF then decide (msgLen < 40)
    else true
  if tooShort then some st
  else do
    let orderRef ← read_nbytes (msg.drop 11) 8
    let side ← msg[19]?
    let numShares ← read_4bytes (msg.drop 20)
    let stockSym ← readSymbol (msg.drop 24)
    let price ← read_4bytes (msg.drop 32)
    let _mpid ← if msgType = tagF then (memcpy (msg.drop 36) 4).map cstring else some []
    some { st with
      activeOrders := st.activeOrders.insert orderRef
        { stock := stockSym, price := price, side := side, shares := numShares } }

/-- Source: `ReplaceOrderMessage` (tag `U`). -/
def ReplaceOrderMessage (st : State) (msg : List Byte) (msgLen : Nat) : Option State :=
  if msgLen < 35 then some st
  else do
    let oldID ← read_nbytes (msg.drop 11) 8
    let newID ← read_nbytes (msg.drop 19) 8
    let newPrice ← read_4bytes (msg.drop 31)
    match st.activeOrders oldID with
    | some od =>
      some { st with
        activeOrders := (st.activeOrders.erase oldID).insert newID { od with price := newPrice } }
    | none => some st

/-- Source: `DeleteOrderMessage` (tag `D`). -/
def DeleteOrderMessage (st : State) (msg : List Byte) (msgLen : Nat) : Option State :=
  if msgLen < 19 then some st
  else do
    let orderRef ← read_nbytes (msg.drop 11) 8
    some { st with activeOrders := st.activeOrders.erase orderRef }

/-- Source: `TradeMessage` (tag `P`). -/
def TradeMessage (st : State) (msg : List Byte) (msgLen : Nat) (timestamp : Nat) :
    Option State :=
  if msgLen < 44 then some st
  else do
    let _orderRef ← read_nbytes (msg.drop 11) 8
    let _side ← msg[19]?
    let numShares ← read_4bytes (msg.drop 20)
    let stockSym ← readSymbol (msg.drop 24)
    let price ← read_4bytes (msg.drop 32)
    let tradeMatchNum ← read_nbytes (msg.drop 36) 8
    some (recordTrade st numShares ((numShares * price) % 2 ^ 64)
      { msgType := tagP, matchID := tradeMatchNum, stock := stockSym, price := price,
        volume := numShares, timestamp := timestamp })

/-- Source: `ExecutedOrderMessage` (tag `E`). -/
def ExecutedOrderMessage (st : State) (msg : List Byte) (msgLen : Nat) (timestamp : Nat) :
    Option State :=
  if msgLen < 31 then some st
  else do
    let orderRef ← read_nbytes (msg.drop 11) 8
    let numShares ← read_4bytes (msg.drop 19)
    let tradeMatchNum ← read_nbytes (msg.drop 23) 8
    match st.activeOrders orderRef with
    | some od =>
      some (recordTrade st numShares ((numShares * od.price) % 2 ^ 64)
        { msgType := tagE, matchID := tradeMatchNum, stock := od.stock, price := od.price,
          volume := numShares, timestamp := timestamp })
    | none => some st

/-- Source: `ExecutedPriceOrderMessage` (tag `C`). -/
def ExecutedPriceOrderMessage (st : State) (msg : List Byte) (msgLen : Nat) (timestamp : Nat) :
    Option State :=
  if msgLen < 36 then some st
  else do
    let orderRef ← read_nbytes (msg.drop 11) 8
    let numShares ← read_4bytes (msg.drop 19)
    let tradeMatchNum ← read_nbytes (msg.drop 23) 8
    let executionPrice ← read_4bytes (msg.drop 32)
    match st.activeOrders orderRef with
    | some od =>
      some (recordTrade st numShares ((numShares * executionPrice) % 2 ^ 64)
        { msgType := tagC, matchID := tradeMatchNum, stock := od.stock, price := executionPrice,
          volume := numShares, timestamp := timestamp })
    | none => some st

/-- Source: `CrossTradeMessage` (tag `Q`). The volume added and the volume stored are
`static_cast<uint32_t>(shares)`; the price-volume added uses the full 64-bit `shares`. -/
def CrossTradeMessage (st : State) (msg : List Byte) (msgLen : Nat) (timestamp : Nat) :
    Option State :=
  if msgLen < 39 then some st
  else do
    let shares ← read_nbytes (msg.drop 11) 8
    let stockSym ← readSymbol (msg.drop 19)
    let crossPrice ← read_4bytes (msg.drop 27)
    let tradeMatchNum ← read_nbytes (msg.drop 31) 8
    if shares > 0 then
      some (recordTrade st (shares % 2 ^ 32) ((shares * crossPrice) % 2 ^ 64)
        { msgType := tagQ, matchID := tradeMatchNum, stock := stockSym, price := crossPrice,
          volume := shares % 2 ^ 32, timestamp := timestamp })
    else some st

/-- The body of `BrokenTradeMessage` once the index holds `tr` for `tradeMatchNum`:
`v = executedTrades[tr.stock]` (created empty when absent), the loop erases the first entry
of `v` with that match number and the message kind of `tr`, then the index entry is erased. -/
def breakTrade (st : State) (tradeMatchNum : Nat) (tr : TradeRecord) : State :=
  { st with
    executedTrades := st.executedTrades.insert tr.stock
      ((histOf st tr.stock).eraseP
        (fun vt => decide (vt.matchID = tradeMatchNum ∧ vt.msgType = tr.msgType))),
    tradeMatchIDMap := st.tradeMatchIDMap.erase tradeMatchNum }

/-- Source: `BrokenTradeMessage` (tag `B`). -/
def BrokenTradeMessage (st : State) (msg : List Byte) (msgLen : Nat) : Option State :=
  if msgLen < 19 then some st
  else do
    let tradeMatchNum ← read_nbytes (msg.drop 11) 8
    match st.tradeMatchIDMap tradeMatchNum with
    | some tr => some (breakTrade st tradeMatchNum tr)
    | none => some st

/-- Source: `processITCH`, the dispatch on the type tag. -/
def processITCH (st : State) (msg : List Byte) (msgLen : Nat) (msgType : Byte)
    (timestamp : Nat) : Option State :=
  if msgType = tagP then TradeMessage st msg msgLen timestamp
  else if msgType = tagC then ExecutedPriceOrderMessage st msg msgLen timestamp
  else if msgType = tagE then ExecutedOrderMessage st msg msgLen timestamp
  else if msgType = tagA then AddOrderMessage st msg msgLen msgType
  else if msgType = tagF then AddOrderMessage st msg msgLen msgType
  else if msgType = tagD then DeleteOrderMessage st msg msgLen
  else if msgType = tagQ then CrossTradeMessage st msg msgLen timestamp
  else if msgType = tagB then BrokenTradeMessage st msg msgLen
  else if msgType = tagU then ReplaceOrderMessage st msg msgLen
  else some st

/-- One call of `processITCH`: the buffer, and the three values passed with it. -/
structure Call where
  msg : List Byte
  msgLen : Nat
  msgType : Byte
  timestamp : Nat

/-- The buffer holds at least the `msgLen` bytes announced for it, as in `main`,
which allocates `vector<char> msg(msgLen)`. -/
def Call.inBounds (c : Call) : Prop := c.msgLen ≤ c.msg.length

instance (c : Call) : Decidable c.inBounds := by
  unfold Call.inBounds
  infer_instance

/-- The calls of `processITCH` made one after the other on a feed. -/
def processAll : State → List Call → Option State
  | st, [] => some st
  | st, c :: cs =>
    (processITCH st c.msg c.msgLen c.msgType c.timestamp).bind (fun st' => processAll st' cs)

/-- A state that some sequence of calls produces from the empty state. -/
def Reachable (st : State) : Prop :=
  ∃ calls : List Call, processAll State.empty calls = some st

/-! ## Specification-side definitions -/

/-- A trade as the specification counts it: the symbol, the share count and the price. -/
structure Trade where
  stock : Symbol
  shares : Nat
  price : Nat
deriving DecidableEq

/-- The trade that the specification has call `c` record in state `st`, if any:
`P` (length at least 44) the shares, symbol and price of the message;
`E` (length at least 31) the shares of the message for the pending order of its reference,
at the stored order price; `C` (length at least 36) the same at the price of the message;
`Q` (length at least 39) the 8-byte shares, symbol and cross price of the message when the
share count is positive. -/
def tradeOf (st : State) (c : Call) : Option Trade :=
  if c.msgType = tagP then
    if c.msgLen < 44 then none
    else do
      let n ← read_4bytes (c.msg.drop 20)
      let s ← readSymbol (c.msg.drop 24)
      let p ← read_4bytes (c.msg.drop 32)
      some { stock := s, shares := n, price := p }
  else if c.msgType = tagE then
    if c.msgLen < 31 then none
    else do
      let r ← read_nbytes (c.msg.drop 11) 8
      let n ← read_4bytes (c.msg.drop 19)
      let od ← st.activeOrders r
      some { stock := od.stock, shares := n, price := od.price }
  else if c.msgType = tagC then
    if c.msgLen < 36 then none
    else do
      let r ← read_nbytes (c.msg.drop 11) 8
      let n ← read_4bytes (c.msg.drop 19)
      let q ← read_4bytes (c.msg.drop 32)
      let od ← st.activeOrders r
      some { stock := od.stock, shares := n, price := q }
  else if c.msgType = tagQ then
    if c.msgLen < 39 then none
    else do
      let k ← read_nbytes (c.msg.drop 11) 8
      let s ← readSymbol (c.msg.drop 19)
      let p ← read_4bytes (c.msg.drop 27)
      if k > 0 then some { stock := s, shares := k, price := p } else none
  else none

/-- Every record of the match-id index is stored under its own match id and is an entry
of the history of its symbol. -/
def IndexInHistory (st : State) : Prop :=
  ∀ m r, st.tradeMatchIDMap m = some r →
    r.matchID = m ∧ ∃ h, st.executedTrades r.stock = some h ∧ r ∈ h

/-! ## Concrete messages used as test inputs -/

/-- The key `AAPL`. -/
def symAAPL : Symbol := [65, 65, 80, 76]

/-- The key `MSFT`. -/
def symMSFT : Symbol := [77, 83, 70, 84]

/-- The 10 bytes between the type tag and offset 11 (locate, tracking, timestamp), all zero. -/
def header0 : List Byte := List.replicate 10 0

/-- Add Order `A`: ref 1, side `B`, 100 shares, stock `AAPL` space-padded, price 1000000. -/
def msgAddAAPL : List Byte :=
  [65] ++ header0 ++ [0, 0, 0, 0, 0, 0, 0, 1] ++ [66] ++ [0, 0, 0, 100] ++
    [65, 65, 80, 76, 32, 32, 32, 32] ++ [0, 15, 66, 64]

/-- Delete Order `D`: ref 1. -/
def msgDelete1 : List Byte :=
  [68] ++ header0 ++ [0, 0, 0, 0, 0, 0, 0, 1]

/-- Order Executed `E`: ref 1, 50 shares, match number 7. -/
def msgExec1 : List Byte :=
  [69] ++ header0 ++ [0, 0, 0, 0, 0, 0, 0, 1] ++ [0, 0, 0, 50] ++ [0, 0, 0, 0, 0, 0, 0, 7]

/-- Order Executed `E`: ref 2, 50 shares, match number 7. -/
def msgExec2 : List Byte :=
  [69] ++ header0 ++ [0, 0, 0, 0, 0, 0, 0, 2] ++ [0, 0, 0, 50] ++ [0, 0, 0, 0, 0, 0, 0, 7]

/-- Order Executed With Price `C`: ref 1, 50 shares, match number 8, printable `Y`,
execution price 2000000. -/
def msgExecPrice1 : List Byte :=
  [67] ++ header0 ++ [0, 0, 0, 0, 0, 0, 0, 1] ++ [0, 0, 0, 50] ++ [0, 0, 0, 0, 0, 0, 0, 8] ++
    [89] ++ [0, 30, 132, 128]

/-- Replace Order `U`: old ref 1, new ref 2, 100 shares, price 3000000. -/
def msgReplace12 : List Byte :=
  [85] ++ header0 ++ [0, 0, 0, 0, 0, 0, 0, 1] ++ [0, 0, 0, 0, 0, 0, 0, 2] ++ [0, 0, 0, 100] ++
    [0, 45, 198, 192]

/-- Replace Order `U`: old ref 1, new ref 1 again, 100 shares, price 3000000. -/
def msgReplace11 : List Byte :=
  [85] ++ header0 ++ [0, 0, 0, 0, 0, 0, 0, 1] ++ [0, 0, 0, 0, 0, 0, 0, 1] ++ [0, 0, 0, 100] ++
    [0, 45, 198, 192]

/-- Trade `P`: ref 0, side `B`, 10 shares, stock `MSFT`, price 2000000, match number 1. -/
def msgTradeMSFT1 : List Byte :=
  [80] ++ header0 ++ [0, 0, 0, 0, 0, 0, 0, 0] ++ [66] ++ [0, 0, 0, 10] ++
    [77, 83, 70, 84, 32, 32, 32, 32] ++ [0, 30, 132, 128] ++ [0, 0, 0, 0, 0, 0, 0, 1]

/-- Trade `P`: ref 0, side `B`, 30 shares, stock `MSFT`, price 3000000, match number 2. -/
def msgTradeMSFT2 : List Byte :=
  [80] ++ header0 ++ [0, 0, 0, 0, 0, 0, 0, 0] ++ [66] ++ [0, 0, 0, 30] ++
    [77, 83, 70, 84, 32, 32, 32, 32] ++ [0, 45, 198, 192] ++ [0, 0, 0, 0, 0, 0, 0, 2]

/-- Trade `P`: 4294967295 shares of `MSFT` at price 4294967295, match number 3. -/
def msgTradeMax : List Byte :=
  [80] ++ header0 ++ [0, 0, 0, 0, 0, 0, 0, 0] ++ [66] ++ [255, 255, 255, 255] ++
    [77, 83, 70, 84, 32, 32, 32, 32] ++ [255, 255, 255, 255] ++ [0, 0, 0, 0, 0, 0, 0, 3]

/-- Cross Trade `Q`: 0 shares, stock `MSFT`, cross price 2000000, match number 9, type `O`. -/
def msgCrossZero : List Byte :=
  [81] ++ header0 ++ [0, 0, 0, 0, 0, 0, 0, 0] ++ [77, 83, 70, 84, 32, 32, 32, 32] ++
    [0, 30, 132, 128] ++ [0, 0, 0, 0, 0, 0, 0, 9] ++ [79]

/-- Broken Trade `B`: match number 1. -/
def msgBroken1 : List Byte :=
  [66] ++ header0 ++ [0, 0, 0, 0, 0, 0, 0, 1]

/-- The call `main` makes for a buffer: `msgLen` its size, `msgType` its first byte, the
timestamp the 6 bytes at offset 5 when the buffer has at least 11 bytes and 0 otherwise. -/
def callOf (msg : List Byte) : Call :=
  { msg := msg, msgLen := msg.length, msgType := msg.headD 0,
    timestamp := if msg.length ≥ 11 then (read_nbytes (msg.drop 5) 6).getD 0 else 0 }

/-- Add Order `A`: ref 1, side `B`, 100 shares, stock `AAPL`, price 4294967295. -/
def msgAddMax : List Byte :=
  [65] ++ header0 ++ [0, 0, 0, 0, 0, 0, 0, 1] ++ [66] ++ [0, 0, 0, 100] ++
    [65, 65, 80, 76, 32, 32, 32, 32] ++ [255, 255, 255, 255]

/-- Order Executed `E`: ref 1, 4294967295 shares, match number 7. -/
def msgExecMax : List Byte :=
  [69] ++ header0 ++ [0, 0, 0, 0, 0, 0, 0, 1] ++ [255, 255, 255, 255] ++
    [0, 0, 0, 0, 0, 0, 0, 7]

/-- Order Executed `E`: ref 2, 4294967295 shares, match number 7. -/
def msgExecMax2 : List Byte :=
  [69] ++ header0 ++ [0, 0, 0, 0, 0, 0, 0, 2] ++ [255, 255, 255, 255] ++
    [0, 0, 0, 0, 0, 0, 0, 7]

/-- Order Executed With Price `C`: ref 1, 4294967295 shares, match number 8, printable `Y`,
execution price 4294967295. -/
def msgExecPriceMax : List Byte :=
  [67] ++ header0 ++ [0, 0, 0, 0, 0, 0, 0, 1] ++ [255, 255, 255, 255] ++
    [0, 0, 0, 0, 0, 0, 0, 8] ++ [89] ++ [255, 255, 255, 255]

/-- Replace Order `U`: old ref 1, new ref 2, 100 shares, price 4294967295. -/
def msgReplaceMax : List Byte :=
  [85] ++ header0 ++ [0, 0, 0, 0, 0, 0, 0, 1] ++ [0, 0, 0, 0, 0, 0, 0, 2] ++ [0, 0, 0, 100] ++
    [255, 255, 255, 255]

/-- The order that `msgAddAAPL` decodes to. -/
def orderAAPL : OrderData :=
  { stock := symAAPL, price := 1000000, side := 66, shares := 100 }

/-- The state after `msgAddAAPL` from the empty state: ref 1 holds `orderAAPL`. -/
def stAfterAdd : State :=
  { State.empty with activeOrders := (Map.empty : Map Nat OrderData).insert 1 orderAAPL }

/-- The record that `msgTradeMSFT1` decodes to, at timestamp 0. -/
def recordMSFT1 : TradeRecord :=
  { msgType := tagP, matchID := 1, stock := symMSFT, price := 2000000, volume := 10,
    timestamp := 0 }

/-- The state after `msgTradeMSFT1` from the empty state. -/
def stAfterTrade : State :=
  recordTrade State.empty 10 20000000 recordMSFT1

/-- Trade `P`: 4294967295 shares of `AAPL` at price 4294967295, match number 3. -/
def msgTradeMaxAAPL : List Byte :=
  [80] ++ header0 ++ [0, 0, 0, 0, 0, 0, 0, 0] ++ [66] ++ [255, 255, 255, 255] ++
    [65, 65, 80, 76, 32, 32, 32, 32] ++ [255, 255, 255, 255] ++ [0, 0, 0, 0, 0, 0, 0, 3]

/-- Cross Trade `Q`: 5 shares, stock `MSFT`, cross price 2000000, match number 10, type `O`. -/
def msgCrossSmall : List Byte :=
  [81] ++ header0 ++ [0, 0, 0, 0, 0, 0, 0, 5] ++ [77, 83, 70, 84, 32, 32, 32, 32] ++
    [0, 30, 132, 128] ++ [0, 0, 0, 0, 0, 0, 0, 10] ++ [79]

/-- A feed with the four kinds of trade: Add and Execute for `AAPL`, Execute-with-price
for `AAPL`, two Trades and a Cross Trade for `MSFT`. -/
def feedMixed : List Call :=
  [callOf msgAddAAPL, callOf msgExec1, callOf msgExecPrice1, callOf msgTradeMSFT1,
   callOf msgTradeMSFT2, callOf msgCrossSmall]

/-! ## The driving loop of `main` and further specification-side definitions -/

/-- The arguments of one call of `printVWAP`: the hour and the accumulator passed to it. -/
abbrev Report := Nat × Map Symbol TradeAggregate

/-- Source: `main`, the timestamp of a payload: the 6 bytes at offset 5 when the payload
has at least 11 bytes, 0 otherwise. -/
def timestampOf (msg : List Byte) : Option Nat :=
  if msg.length ≥ 11 then read_nbytes (msg.drop 5) 6 else some 0

/-- The variables of the loop of `main`: `iffirstMsg`, `currentHour`, the four tables, and
the calls of `printVWAP` made so far. -/
structure LoopState where
  iffirstMsg : Bool
  currentHour : Nat
  tables : State
  reports : List Report

/-- Source: `while (msgHour > currentHour) { printVWAP(.., currentHour, ..); ++currentHour; }`,
with `fuel` iterations allowed; `main` needs `msgHour - currentHour` of them. -/
def hourLoop (agg : Map Symbol TradeAggregate) (msgHour : Nat) :
    Nat → Nat → List Report → Nat × List Report
  | 0, currentHour, reports => (currentHour, reports)
  | fuel + 1, currentHour, reports =>
    if msgHour > currentHour then
      hourLoop agg msgHour fuel (currentHour + 1) (reports ++ [(currentHour, agg)])
    else (currentHour, reports)

/-- Source: the body of the loop of `main` for one payload read in full. -/
def loopBody (ls : LoopState) (msg : List Byte) : Option LoopState := do
  let msgType ← msg[0]?
  let timestamp ← timestampOf msg
  let msgHour := timestamp / 3600000000000
  let currentHour := if ls.iffirstMsg then msgHour else ls.currentHour
  let caughtUp := hourLoop ls.tables.VWAPaggregator msgHour (msgHour - currentHour)
    currentHour ls.reports
  let tables ← processITCH ls.tables msg msg.length msgType timestamp
  some { iffirstMsg := false, currentHour := caughtUp.1, tables := tables,
         reports := caughtUp.2 }

/-- Source: the loop of `main` over the payloads of the feed; a payload of length 0
ends the stream. -/
def mainLoop : LoopState → List (List Byte) → Option LoopState
  | ls, [] => some ls
  | ls, msg :: rest =>
    if msg.length = 0 then some ls
    else (loopBody ls msg).bind (fun ls' => mainLoop ls' rest)

/-- The variables of the loop of `main` before any payload is read. -/
def LoopState.init : LoopState :=
  { iffirstMsg := true, currentHour := 0, tables := State.empty, reports := [] }

/-- Source: `main` from the first read to the last `printVWAP`: all the reports of a feed. -/
def mainReports (feed : List (List Byte)) : Option (List Report) :=
  (mainLoop LoopState.init feed).map
    (fun ls => ls.reports ++ [(ls.currentHour, ls.tables.VWAPaggregator)])

/-- The hour of a payload: its timestamp divided by 3600000000000. -/
def hourOf (msg : List Byte) : Nat :=
  (timestampOf msg).getD 0 / 3600000000000

/-- The call of `processITCH` that `main` makes for a payload. -/
def processFrame (st : State) (msg : List Byte) : Option State := do
  let msgType ← msg[0]?
  let timestamp ← timestampOf msg
  processITCH st msg msg.length msgType timestamp

/-- The payloads of a feed processed one after the other, without the reports. -/
def processFeed : State → List (List Byte) → Option State
  | st, [] => some st
  | st, msg :: rest => (processFrame st msg).bind (fun st' => processFeed st' rest)

/-- The unsigned big-endian value of a byte sequence `b_0 .. b_(n-1)`:
the sum of `b_i * 256^(n-1-i)`. -/
def bigEndian : List Byte → Nat
  | [] => 0
  | b :: bs => b.toNat * 256 ^ bs.length + bigEndian bs

/-- The sum of the `volume` fields of the records of a history. -/
def historyVolume (h : List TradeRecord) : Nat :=
  (h.map (fun tr => tr.volume)).sum

/-- What call `c` adds in state `st` to the aggregate of symbol `s`, before the 64-bit
wraparound: to the volume the share count of the trade (narrowed to 32 bits for `Q`), to
the priceVolume the 64-bit product of share count and price; nothing when the call records
no trade for `s`. -/
def contribution (st : State) (c : Call) (s : Symbol) : Nat × Nat :=
  match tradeOf st c with
  | some t =>
    if t.stock = s then
      (if c.msgType = tagQ then t.shares % 2 ^ 32 else t.shares, (t.shares * t.price) % 2 ^ 64)
    else (0, 0)
  | none => (0, 0)

/-- Add Order `A` cut after 20 bytes. -/
def msgAddShort : List Byte := msgAddAAPL.take 20

/-- Trade `P`: 10 shares, stock `MSFT` padded on the left (`  MSFT  `), price 2000000,
match number 4. -/
def msgTradeMSFTLeftPad : List Byte :=
  [80] ++ header0 ++ [0, 0, 0, 0, 0, 0, 0, 0] ++ [66] ++ [0, 0, 0, 10] ++
    [32, 32, 77, 83, 70, 84, 32, 32] ++ [0, 30, 132, 128] ++ [0, 0, 0, 0, 0, 0, 0, 4]

/-- The 10 header bytes with the timestamp of hour 9, 9 * 3600000000000. -/
def header9 : List Byte := [0, 0, 0, 0] ++ [29, 119, 182, 125, 160, 0]

/-- The 10 header bytes with the timestamp of hour 11, 11 * 3600000000000. -/
def header11 : List Byte := [0, 0, 0, 0] ++ [36, 4, 23, 238, 224, 0]

/-- Trade `P` in hour 9: 10 shares of `MSFT` at price 2000000, match number 1. -/
def msgTradeAt9 : List Byte :=
  [80] ++ header9 ++ [0, 0, 0, 0, 0, 0, 0, 0] ++ [66] ++ [0, 0, 0, 10] ++
    [77, 83, 70, 84, 32, 32, 32, 32] ++ [0, 30, 132, 128] ++ [0, 0, 0, 0, 0, 0, 0, 1]

/-- Trade `P` in hour 11: 30 shares of `MSFT` at price 3000000, match number 2. -/
def msgTradeAt11 : List Byte :=
  [80] ++ header11 ++ [0, 0, 0, 0, 0, 0, 0, 0] ++ [66] ++ [0, 0, 0, 30] ++
    [77, 83, 70, 84, 32, 32, 32, 32] ++ [0, 45, 198, 192] ++ [0, 0, 0, 0, 0, 0, 0, 2]

/-- What holds of the loop state `ls` once `main` has consumed the payloads `feed`, whose
first payload is `first` and whose last is `last`: the current hour is the hour of `last`,
the tables are those of `feed` processed from the empty state, the reports emitted so far
are one per hour from the hour of `first` up to, not including, the hour of `last`, and
the report of hour `h` carries the accumulator of the payloads of hour at most `h`. -/
def LoopInvariant (feed : List (List Byte)) (first last : List Byte) (ls : LoopState) : Prop :=
  ls.iffirstMsg = false ∧ ls.currentHour = hourOf last ∧
    processFeed State.empty feed = some ls.tables ∧
    ls.reports.map Prod.fst = List.range' (hourOf first) (hourOf last - hourOf first) ∧
    ∀ r ∈ ls.reports, ∃ st,
      processFeed State.empty (feed.filter (fun m => decide (hourOf m ≤ r.1))) = some st ∧
        r.2 = st.VWAPaggregator

/-- Source: the reading part of the loop of `main`: a 2-byte big-endian length, then that
many payload bytes; the stream ends when the length cannot be read, is 0, or exceeds the
bytes left. `fuel` bounds the number of frames; the length of the stream is enough. -/
def readFrames : Nat → List Byte → List (List Byte)
  | 0, _ => []
  | fuel + 1, bytes =>
    match read_2bytes bytes with
    | none => []
    | some msgLen =>
      if msgLen = 0 then []
      else if msgLen ≤ (bytes.drop 2).length then
        (bytes.drop 2).take msgLen :: readFrames fuel (bytes.drop (2 + msgLen))
      else []

/-- Source: `main` on the bytes of the input file: the reports it emits. -/
def mainProgram (bytes : List Byte) : Option (List Report) :=
  mainReports (readFrames bytes.length bytes)

/-- An input file: the two `P` trades of hours 9 and 11, each behind its 2-byte length,
then a length of 0. -/
def streamTwoTrades : List Byte :=
  [0, 44] ++ msgTradeAt9 ++ [0, 44] ++ msgTradeAt11 ++ [0, 0]

/-! ## Lemmas -/

theorem read_nbytes_loop_some (p : List Byte) (len : Nat) :
    ∀ value : Nat, len ≤ p.length → ∃ v, read_nbytes_loop p len value = some v := by
  induction len generalizing p with
  | zero => intro value _; exact ⟨value, by cases p <;> rfl⟩
  | succ n ih =>
    intro value h
    cases p with
    | nil => simp at h
    | cons b p =>
      simp only [read_nbytes_loop]
      exact ih p _ (by simpa using h)

theorem read_nbytes_some (msg : List Byte) (k len : Nat) (h : k + len ≤ msg.length) :
    ∃ v, read_nbytes (msg.drop k) len = some v :=
  read_nbytes_loop_some _ _ _ (by rw [List.length_drop]; omega)

theorem getElem?_some_of_lt (msg : List Byte) (k : Nat) (h : k < msg.length) :
    ∃ b, msg[k]? = some b :=
  ⟨msg[k], List.getElem?_eq_getElem h⟩

theorem read_4bytes_some (msg : List Byte) (k : Nat) (h : k + 4 ≤ msg.length) :
    ∃ v, read_4bytes (msg.drop k) = some v := by
  obtain ⟨b0, h0⟩ := getElem?_some_of_lt msg k (by omega)
  obtain ⟨b1, h1⟩ := getElem?_some_of_lt msg (k + 1) (by omega)
  obtain ⟨b2, h2⟩ := getElem?_some_of_lt msg (k + 2) (by omega)
  obtain ⟨b3, h3⟩ := getElem?_some_of_lt msg (k + 3) (by omega)
  simp [read_4bytes, List.getElem?_drop, h0, h1, h2, h3]

theorem memcpy_some (msg : List Byte) (k n : Nat) (h : k + n ≤ msg.length) :
    ∃ v, memcpy (msg.drop k) n = some v := by
  have : n ≤ (msg.drop k).length := by rw [List.length_drop]; omega
  exact ⟨(msg.drop k).take n, by simp only [memcpy, if_pos this]⟩

theorem readSymbol_some (msg : List Byte) (k : Nat) (h : k + 8 ≤ msg.length) :
    ∃ v, readSymbol (msg.drop k) = some v := by
  obtain ⟨b, hb⟩ := memcpy_some msg k 8 h
  exact ⟨trim (cstring b), by simp [readSymbol, hb]⟩

theorem AddOrderMessage_total (st : State) (msg : List Byte) (msgLen : Nat) (msgType : Byte)
    (hbuf : msgLen ≤ msg.length) : ∃ st', AddOrderMessage st msg msgLen msgType = some st' := by
  unfold AddOrderMessage
  by_cases hA : msgType = tagA
  · by_cases hlen : msgLen < 36
    · exact ⟨st, by simp [hA, hlen]⟩
    · obtain ⟨r, hr⟩ := read_nbytes_some msg 11 8 (by omega)
      obtain ⟨d, hd⟩ := getElem?_some_of_lt msg 19 (by omega)
      obtain ⟨n, hn⟩ := read_4bytes_some msg 20 (by omega)
      obtain ⟨s, hs⟩ := readSymbol_some msg 24 (by omega)
      obtain ⟨p, hp⟩ := read_4bytes_some msg 32 (by omega)
      have hAF : tagA ≠ tagF := by decide
      simp [hA, hlen, hr, hd, hn, hs, hp, hAF]
  · by_cases hF : msgType = tagF
    · by_cases hlen : msgLen < 40
      · have hFA : tagF ≠ tagA := by decide
        exact ⟨st, by simp [hF, hFA, hlen]⟩
      · obtain ⟨r, hr⟩ := read_nbytes_some msg 11 8 (by omega)
        obtain ⟨d, hd⟩ := getElem?_some_of_lt msg 19 (by omega)
        obtain ⟨n, hn⟩ := read_4bytes_some msg 20 (by omega)
        obtain ⟨s, hs⟩ := readSymbol_some msg 24 (by omega)
        obtain ⟨p, hp⟩ := read_4bytes_some msg 32 (by omega)
        obtain ⟨m, hm⟩ := memcpy_some msg 36 4 (by omega)
        have hFA : tagF ≠ tagA := by decide
        simp [hF, hFA, hlen, hr, hd, hn, hs, hp, hm]
    · exact ⟨st, by simp [hA, hF]⟩

theorem ReplaceOrderMessage_total (st : State) (msg : List Byte) (msgLen : Nat)
    (hbuf : msgLen ≤ msg.length) : ∃ st', ReplaceOrderMessage st msg msgLen = some st' := by
  unfold ReplaceOrderMessage
  by_cases hlen : msgLen < 35
  · exact ⟨st, by simp [hlen]⟩
  · obtain ⟨o, ho⟩ := read_nbytes_some msg 11 8 (by omega)
    obtain ⟨n, hn⟩ := read_nbytes_some msg 19 8 (by omega)
    obtain ⟨p, hp⟩ := read_4bytes_some msg 31 (by omega)
    cases hod : st.activeOrders o <;> simp [hlen, ho, hn, hp, hod]

theorem DeleteOrderMessage_total (st : State) (msg : List Byte) (msgLen : Nat)
    (hbuf : msgLen ≤ msg.length) : ∃ st', DeleteOrderMessage st msg msgLen = some st' := by
  unfold DeleteOrderMessage
  by_cases hlen : msgLen < 19
  · exact ⟨st, by simp [hlen]⟩
  · obtain ⟨o, ho⟩ := read_nbytes_some msg 11 8 (by omega)
    simp [hlen, ho]

theorem TradeMessage_total (st : State) (msg : List Byte) (msgLen ts : Nat)
    (hbuf : msgLen ≤ msg.length) : ∃ st', TradeMessage st msg msgLen ts = some st' := by
  unfold TradeMessage
  by_cases hlen : msgLen < 44
  · exact ⟨st, by simp [hlen]⟩
  · obtain ⟨r, hr⟩ := read_nbytes_some msg 11 8 (by omega)
    obtain ⟨d, hd⟩ := getElem?_some_of_lt msg 19 (by omega)
    obtain ⟨n, hn⟩ := read_4bytes_some msg 20 (by omega)
    obtain ⟨s, hs⟩ := readSymbol_some msg 24 (by omega)
    obtain ⟨p, hp⟩ := read_4bytes_some msg 32 (by omega)
    obtain ⟨m, hm⟩ := read_nbytes_some msg 36 8 (by omega)
    simp [hlen, hr, hd, hn, hs, hp, hm]

theorem ExecutedOrderMessage_total (st : State) (msg : List Byte) (msgLen ts : Nat)
    (hbuf : msgLen ≤ msg.length) : ∃ st', ExecutedOrderMessage st msg msgLen ts = some st' := by
  unfold ExecutedOrderMessage
  by_cases hlen : msgLen < 31
  · exact ⟨st, by simp [hlen]⟩
  · obtain ⟨r, hr⟩ := read_nbytes_some msg 11 8 (by omega)
    obtain ⟨n, hn⟩ := read_4bytes_some msg 19 (by omega)
    obtain ⟨m, hm⟩ := read_nbytes_some msg 23 8 (by omega)
    cases hod : st.activeOrders r <;> simp [hlen, hr, hn, hm, hod]

theorem ExecutedPriceOrderMessage_total (st : State) (msg : List Byte) (msgLen ts : Nat)
    (hbuf : msgLen ≤ msg.length) :
    ∃ st', ExecutedPriceOrderMessage st msg msgLen ts = some st' := by
  unfold ExecutedPriceOrderMessage
  by_cases hlen : msgLen < 36
  · exact ⟨st, by simp [hlen]⟩
  · obtain ⟨r, hr⟩ := read_nbytes_some msg 11 8 (by omega)
    obtain ⟨n, hn⟩ := read_4bytes_some msg 19 (by omega)
    obtain ⟨m, hm⟩ := read_nbytes_some msg 23 8 (by omega)
    obtain ⟨q, hq⟩ := read_4bytes_some msg 32 (by omega)
    cases hod : st.activeOrders r <;> simp [hlen, hr, hn, hm, hq, hod]

theorem CrossTradeMessage_total (st : State) (msg : List Byte) (msgLen ts : Nat)
    (hbuf : msgLen ≤ msg.length) : ∃ st', CrossTradeMessage st msg msgLen ts = some st' := by
  unfold CrossTradeMessage
  by_cases hlen : msgLen < 39
  · exact ⟨st, by simp [hlen]⟩
  · obtain ⟨k, hk⟩ := read_nbytes_some msg 11 8 (by omega)
    obtain ⟨s, hs⟩ := readSymbol_some msg 19 (by omega)
    obtain ⟨p, hp⟩ := read_4bytes_some msg 27 (by omega)
    obtain ⟨m, hm⟩ := read_nbytes_some msg 31 8 (by omega)
    by_cases hpos : k > 0 <;> simp [hlen, hk, hs, hp, hm, hpos]

theorem BrokenTradeMessage_total (st : State) (msg : List Byte) (msgLen : Nat)
    (hbuf : msgLen ≤ msg.length) : ∃ st', BrokenTradeMessage st msg msgLen = some st' := by
  unfold BrokenTradeMessage
  by_cases hlen : msgLen < 19
  · exact ⟨st, by simp [hlen]⟩
  · obtain ⟨m, hm⟩ := read_nbytes_some msg 11 8 (by omega)
    cases htr : st.tradeMatchIDMap m <;> simp [hlen, hm, htr]

theorem processITCH_total (st : State) (msg : List Byte) (msgLen : Nat) (msgType : Byte)
    (ts : Nat) (hbuf : msgLen ≤ msg.length) :
    ∃ st', processITCH st msg msgLen msgType ts = some st' := by
  unfold processITCH
  split_ifs
  · exact TradeMessage_total st msg msgLen ts hbuf
  · exact ExecutedPriceOrderMessage_total st msg msgLen ts hbuf
  · exact ExecutedOrderMessage_total st msg msgLen ts hbuf
  · exact AddOrderMessage_total st msg msgLen msgType hbuf
  · exact AddOrderMessage_total st msg msgLen msgType hbuf
  · exact DeleteOrderMessage_total st msg msgLen hbuf
  · exact CrossTradeMessage_total st msg msgLen ts hbuf
  · exact BrokenTradeMessage_total st msg msgLen hbuf
  · exact ReplaceOrderMessage_total st msg msgLen hbuf
  · exact ⟨st, rfl⟩

theorem processAll_total (calls : List Call) :
    ∀ st : State, (∀ c ∈ calls, c.inBounds) → ∃ st', processAll st calls = some st' := by
  induction calls with
  | nil => intro st _; exact ⟨st, rfl⟩
  | cons c cs ih =>
    intro st h
    obtain ⟨st1, h1⟩ := processITCH_total st c.msg c.msgLen c.msgType c.timestamp
      (h c (List.mem_cons_self _ _))
    obtain ⟨st2, h2⟩ := ih st1 (fun c' hc' => h c' (List.mem_cons_of_mem _ hc'))
    exact ⟨st2, by simp [processAll, h1, h2]⟩

theorem processITCH_tagP (st : State) (msg : List Byte) (msgLen ts : Nat) :
    processITCH st msg msgLen tagP ts = TradeMessage st msg msgLen ts := by
  simp [processITCH]

theorem processITCH_tagC (st : State) (msg : List Byte) (msgLen ts : Nat) :
    processITCH st msg msgLen tagC ts = ExecutedPriceOrderMessage st msg msgLen ts := by
  have h : tagC ≠ tagP := by decide
  simp [processITCH, h]

theorem processITCH_tagE (st : State) (msg : List Byte) (msgLen ts : Nat) :
    processITCH st msg msgLen tagE ts = ExecutedOrderMessage st msg msgLen ts := by
  have h1 : tagE ≠ tagP := by decide
  have h2 : tagE ≠ tagC := by decide
  simp [processITCH, h1, h2]

theorem processITCH_tagA (st : State) (msg : List Byte) (msgLen ts : Nat) :
    processITCH st msg msgLen tagA ts = AddOrderMessage st msg msgLen tagA := by
  have h1 : tagA ≠ tagP := by decide
  have h2 : tagA ≠ tagC := by decide
  have h3 : tagA ≠ tagE := by decide
  simp [processITCH, h1, h2, h3]

theorem processITCH_tagF (st : State) (msg : List Byte) (msgLen ts : Nat) :
    processITCH st msg msgLen tagF ts = AddOrderMessage st msg msgLen tagF := by
  have h1 : tagF ≠ tagP := by decide
  have h2 : tagF ≠ tagC := by decide
  have h3 : tagF ≠ tagE := by decide
  have h4 : tagF ≠ tagA := by decide
  simp [processITCH, h1, h2, h3, h4]

theorem processITCH_tagD (st : State) (msg : List Byte) (msgLen ts : Nat) :
    processITCH st msg msgLen tagD ts = DeleteOrderMessage st msg msgLen := by
  have h1 : tagD ≠ tagP := by decide
  have h2 : tagD ≠ tagC := by decide
  have h3 : tagD ≠ tagE := by decide
  have h4 : tagD ≠ tagA := by decide
  have h5 : tagD ≠ tagF := by decide
  simp [processITCH, h1, h2, h3, h4, h5]

theorem processITCH_tagQ (st : State) (msg : List Byte) (msgLen ts : Nat) :
    processITCH st msg msgLen tagQ ts = CrossTradeMessage st msg msgLen ts := by
  have h1 : tagQ ≠ tagP := by decide
  have h2 : tagQ ≠ tagC := by decide
  have h3 : tagQ ≠ tagE := by decide
  have h4 : tagQ ≠ tagA := by decide
  have h5 : tagQ ≠ tagF := by decide
  have h6 : tagQ ≠ tagD := by decide
  simp [processITCH, h1, h2, h3, h4, h5, h6]

theorem processITCH_tagB (st : State) (msg : List Byte) (msgLen ts : Nat) :
    processITCH st msg msgLen tagB ts = BrokenTradeMessage st msg msgLen := by
  have h1 : tagB ≠ tagP := by decide
  have h2 : tagB ≠ tagC := by decide
  have h3 : tagB ≠ tagE := by decide
  have h4 : tagB ≠ tagA := by decide
  have h5 : tagB ≠ tagF := by decide
  have h6 : tagB ≠ tagD := by decide
  have h7 : tagB ≠ tagQ := by decide
  simp [processITCH, h1, h2, h3, h4, h5, h6, h7]

theorem processITCH_tagU (st : State) (msg : List Byte) (msgLen ts : Nat) :
    processITCH st msg msgLen tagU ts = ReplaceOrderMessage st msg msgLen := by
  have h1 : tagU ≠ tagP := by decide
  have h2 : tagU ≠ tagC := by decide
  have h3 : tagU ≠ tagE := by decide
  have h4 : tagU ≠ tagA := by decide
  have h5 : tagU ≠ tagF := by decide
  have h6 : tagU ≠ tagD := by decide
  have h7 : tagU ≠ tagQ := by decide
  have h8 : tagU ≠ tagB := by decide
  simp [processITCH, h1, h2, h3, h4, h5, h6, h7, h8]

/-- What a well-formed Add does: it stores the decoded order under its reference. -/
theorem AddOrderMessage_wf (st : State) (msg : List Byte) (msgLen : Nat) (msgType : Byte)
    (r : Nat) (hbuf : msgLen ≤ msg.length)
    (hwf : msgType = tagA ∧ 36 ≤ msgLen ∨ msgType = tagF ∧ 40 ≤ msgLen)
    (hr : read_nbytes (msg.drop 11) 8 = some r) :
    ∃ d k s p, msg[19]? = some d ∧ read_4bytes (msg.drop 20) = some k ∧
      readSymbol (msg.drop 24) = some s ∧ read_4bytes (msg.drop 32) = some p ∧
      AddOrderMessage st msg msgLen msgType =
        some { st with
          activeOrders := st.activeOrders.insert r
            { stock := s, price := p, side := d, shares := k } } := by
  have h36 : 36 ≤ msgLen := by rcases hwf with h | h <;> omega
  obtain ⟨d, hd⟩ := getElem?_some_of_lt msg 19 (by omega)
  obtain ⟨k, hk⟩ := read_4bytes_some msg 20 (by omega)
  obtain ⟨s, hs⟩ := readSymbol_some msg 24 (by omega)
  obtain ⟨p, hp⟩ := read_4bytes_some msg 32 (by omega)
  refine ⟨d, k, s, p, hd, hk, hs, hp, ?_⟩
  unfold AddOrderMessage
  rcases hwf with ⟨hA, hlen⟩ | ⟨hF, hlen⟩
  · have hAF : tagA ≠ tagF := by decide
    have hlen' : ¬ msgLen < 36 := by omega
    simp [hA, hlen', hr, hd, hk, hs, hp, hAF]
  · obtain ⟨m, hm⟩ := memcpy_some msg 36 4 (by omega)
    have hFA : tagF ≠ tagA := by decide
    have hlen' : ¬ msgLen < 40 := by omega
    simp [hF, hFA, hlen', hr, hd, hk, hs, hp, hm]

theorem processITCH_add (st : State) (msg : List Byte) (msgLen : Nat) (msgType : Byte)
    (ts : Nat) (h : msgType = tagA ∨ msgType = tagF) :
    processITCH st msg msgLen msgType ts = AddOrderMessage st msg msgLen msgType := by
  rcases h with h | h
  · rw [h]; exact processITCH_tagA st msg msgLen ts
  · rw [h]; exact processITCH_tagF st msg msgLen ts

theorem DeleteOrderMessage_wf (st : State) (msg : List Byte) (msgLen r : Nat)
    (hlen : 19 ≤ msgLen) (hr : read_nbytes (msg.drop 11) 8 = some r) :
    DeleteOrderMessage st msg msgLen =
      some { st with activeOrders := st.activeOrders.erase r } := by
  have hlen' : ¬ msgLen < 19 := by omega
  simp [DeleteOrderMessage, hlen', hr]

theorem ReplaceOrderMessage_wf (st : State) (msg : List Byte) (msgLen x y p : Nat)
    (od : OrderData) (hlen : 35 ≤ msgLen)
    (hx : read_nbytes (msg.drop 11) 8 = some x) (hy : read_nbytes (msg.drop 19) 8 = some y)
    (hp : read_4bytes (msg.drop 31) = some p) (hod : st.activeOrders x = some od) :
    ReplaceOrderMessage st msg msgLen =
      some { st with
        activeOrders := (st.activeOrders.erase x).insert y { od with price := p } } := by
  have hlen' : ¬ msgLen < 35 := by omega
  simp [ReplaceOrderMessage, hlen', hx, hy, hp, hod]

/-- An Order-Executed message for a reference the order book does not hold changes nothing. -/
theorem ExecutedOrderMessage_absent (st : State) (msg : List Byte) (msgLen ts r : Nat)
    (hbuf : msgLen ≤ msg.length) (hr : read_nbytes (msg.drop 11) 8 = some r)
    (hno : st.activeOrders r = none) : ExecutedOrderMessage st msg msgLen ts = some st := by
  unfold ExecutedOrderMessage
  by_cases hlen : msgLen < 31
  · simp [hlen]
  · obtain ⟨n, hn⟩ := read_4bytes_some msg 19 (by omega)
    obtain ⟨m, hm⟩ := read_nbytes_some msg 23 8 (by omega)
    simp [hlen, hr, hn, hm, hno]

/-- An Order-Executed-With-Price message for a reference the order book does not hold
changes nothing. -/
theorem ExecutedPriceOrderMessage_absent (st : State) (msg : List Byte) (msgLen ts r : Nat)
    (hbuf : msgLen ≤ msg.length) (hr : read_nbytes (msg.drop 11) 8 = some r)
    (hno : st.activeOrders r = none) :
    ExecutedPriceOrderMessage st msg msgLen ts = some st := by
  unfold ExecutedPriceOrderMessage
  by_cases hlen : msgLen < 36
  · simp [hlen]
  · obtain ⟨n, hn⟩ := read_4bytes_some msg 19 (by omega)
    obtain ⟨m, hm⟩ := read_nbytes_some msg 23 8 (by omega)
    obtain ⟨q, hq⟩ := read_4bytes_some msg 32 (by omega)
    simp [hlen, hr, hn, hm, hq, hno]

theorem Map.erase_self {K V : Type} [DecidableEq K] (m : Map K V) (k : K) :
    m.erase k k = none := by
  simp [Map.erase]

theorem Map.insert_self {K V : Type} [DecidableEq K] (m : Map K V) (k : K) (v : V) :
    m.insert k v k = some v := by
  simp [Map.insert]

theorem Map.insert_of_ne {K V : Type} [DecidableEq K] (m : Map K V) (k k' : K) (v : V)
    (h : k' ≠ k) : m.insert k v k' = m k' := by
  simp [Map.insert, h]

theorem Map.erase_of_ne {K V : Type} [DecidableEq K] (m : Map K V) (k k' : K)
    (h : k' ≠ k) : m.erase k k' = m k' := by
  simp [Map.erase, h]

/-- What `recordTrade` does to each of the four tables. -/
theorem recordTrade_spec (st : State) (v pv : Nat) (tr : TradeRecord) :
    (recordTrade st v pv tr).VWAPaggregator tr.stock =
        some { volume := ((aggOf st tr.stock).volume + v) % 2 ^ 64,
               priceVolume := ((aggOf st tr.stock).priceVolume + pv) % 2 ^ 64 } ∧
      (∀ s, s ≠ tr.stock → (recordTrade st v pv tr).VWAPaggregator s = st.VWAPaggregator s) ∧
      (recordTrade st v pv tr).executedTrades tr.stock = some (histOf st tr.stock ++ [tr]) ∧
      (∀ s, s ≠ tr.stock → (recordTrade st v pv tr).executedTrades s = st.executedTrades s) ∧
      (recordTrade st v pv tr).tradeMatchIDMap tr.matchID = some tr ∧
      (∀ k, k ≠ tr.matchID →
        (recordTrade st v pv tr).tradeMatchIDMap k = st.tradeMatchIDMap k) ∧
      (recordTrade st v pv tr).activeOrders = st.activeOrders := by
  refine ⟨?_, ?_, ?_, ?_, ?_, ?_, rfl⟩
  · simp [recordTrade, Map.insert]
  · intro s hs; simp [recordTrade, Map.insert, hs]
  · simp [recordTrade, Map.insert]
  · intro s hs; simp [recordTrade, Map.insert, hs]
  · simp [recordTrade, Map.insert]
  · intro k hk; simp [recordTrade, Map.insert, hk]

theorem TradeMessage_wf (st : State) (msg : List Byte) (msgLen ts n p m : Nat) (s : Symbol)
    (hbuf : msgLen ≤ msg.length) (hlen : 44 ≤ msgLen)
    (hn : read_4bytes (msg.drop 20) = some n) (hs : readSymbol (msg.drop 24) = some s)
    (hp : read_4bytes (msg.drop 32) = some p) (hm : read_nbytes (msg.drop 36) 8 = some m) :
    TradeMessage st msg msgLen ts =
      some (recordTrade st n ((n * p) % 2 ^ 64)
        { msgType := tagP, matchID := m, stock := s, price := p, volume := n,
          timestamp := ts }) := by
  obtain ⟨r, hr⟩ := read_nbytes_some msg 11 8 (by omega)
  obtain ⟨d, hd⟩ := getElem?_some_of_lt msg 19 (by omega)
  have hlen' : ¬ msgLen < 44 := by omega
  simp [TradeMessage, hlen', hr, hd, hn, hs, hp, hm]

theorem ExecutedOrderMessage_wf (st : State) (msg : List Byte) (msgLen ts r n m : Nat)
    (od : OrderData) (hlen : 31 ≤ msgLen)
    (hr : read_nbytes (msg.drop 11) 8 = some r) (hn : read_4bytes (msg.drop 19) = some n)
    (hm : read_nbytes (msg.drop 23) 8 = some m) (hod : st.activeOrders r = some od) :
    ExecutedOrderMessage st msg msgLen ts =
      some (recordTrade st n ((n * od.price) % 2 ^ 64)
        { msgType := tagE, matchID := m, stock := od.stock, price := od.price, volume := n,
          timestamp := ts }) := by
  have hlen' : ¬ msgLen < 31 := by omega
  simp [ExecutedOrderMessage, hlen', hr, hn, hm, hod]

theorem ExecutedPriceOrderMessage_wf (st : State) (msg : List Byte) (msgLen ts r n m q : Nat)
    (od : OrderData) (hlen : 36 ≤ msgLen)
    (hr : read_nbytes (msg.drop 11) 8 = some r) (hn : read_4bytes (msg.drop 19) = some n)
    (hm : read_nbytes (msg.drop 23) 8 = some m) (hq : read_4bytes (msg.drop 32) = some q)
    (hod : st.activeOrders r = some od) :
    ExecutedPriceOrderMessage st msg msgLen ts =
      some (recordTrade st n ((n * q) % 2 ^ 64)
        { msgType := tagC, matchID := m, stock := od.stock, price := q, volume := n,
          timestamp := ts }) := by
  have hlen' : ¬ msgLen < 36 := by omega
  simp [ExecutedPriceOrderMessage, hlen', hr, hn, hm, hq, hod]

/-- The accumulator part of `recordTrade_spec`, read through `aggOf`, with the exact
sums when no 64-bit addition wraps. -/
theorem recordTrade_aggOf (st : State) (v pv : Nat) (tr : TradeRecord) :
    aggOf (recordTrade st v pv tr) tr.stock =
        { volume := ((aggOf st tr.stock).volume + v) % 2 ^ 64,
          priceVolume := ((aggOf st tr.stock).priceVolume + pv) % 2 ^ 64 } ∧
      (∀ s, s ≠ tr.stock → aggOf (recordTrade st v pv tr) s = aggOf st s) := by
  constructor
  · simp [aggOf, recordTrade, Map.insert]
  · intro s hs; simp [aggOf, recordTrade, Map.insert, hs]

/-- The effect of recording `n` shares at `price` as trade `tr`, in the form the claims
about the four trade handlers use. -/
theorem recordTrade_effect (st : State) (n price : Nat) (tr : TradeRecord) :
    (recordTrade st n ((n * price) % 2 ^ 64) tr).VWAPaggregator tr.stock =
        some { volume := ((aggOf st tr.stock).volume + n) % 2 ^ 64,
               priceVolume := ((aggOf st tr.stock).priceVolume + n * price) % 2 ^ 64 } ∧
      ((aggOf st tr.stock).volume + n < 2 ^ 64 →
        (aggOf (recordTrade st n ((n * price) % 2 ^ 64) tr) tr.stock).volume =
          (aggOf st tr.stock).volume + n) ∧
      ((aggOf st tr.stock).priceVolume + n * price < 2 ^ 64 →
        (aggOf (recordTrade st n ((n * price) % 2 ^ 64) tr) tr.stock).priceVolume =
          (aggOf st tr.stock).priceVolume + n * price) ∧
      (∀ s, s ≠ tr.stock →
        (recordTrade st n ((n * price) % 2 ^ 64) tr).VWAPaggregator s = st.VWAPaggregator s) ∧
      (recordTrade st n ((n * price) % 2 ^ 64) tr).executedTrades tr.stock =
        some (histOf st tr.stock ++ [tr]) ∧
      (recordTrade st n ((n * price) % 2 ^ 64) tr).tradeMatchIDMap tr.matchID = some tr := by
  obtain ⟨h1, h2, h3, _, h5, _, _⟩ := recordTrade_spec st n ((n * price) % 2 ^ 64) tr
  obtain ⟨h7, _⟩ := recordTrade_aggOf st n ((n * price) % 2 ^ 64) tr
  refine ⟨?_, ?_, ?_, h2, h3, h5⟩
  · rw [h1, Nat.add_mod_mod]
  · intro h; rw [h7]; exact Nat.mod_eq_of_lt h
  · intro h; rw [h7]; show (_ + n * price % 2 ^ 64) % 2 ^ 64 = _
    rw [Nat.add_mod_mod]; exact Nat.mod_eq_of_lt h

/-! ### The shape of one step -/

theorem BrokenTradeMessage_shape (st st' : State) (msg : List Byte) (msgLen : Nat)
    (h : BrokenTradeMessage st msg msgLen = some st') :
    st' = st ∨ ∃ m tr, st.tradeMatchIDMap m = some tr ∧ st' = breakTrade st m tr := by
  unfold BrokenTradeMessage at h
  split_ifs at h with hlen
  · exact Or.inl (Option.some.inj h).symm
  · cases hm : read_nbytes (msg.drop 11) 8 with
    | none => simp [hm] at h
    | some m =>
      cases htr : st.tradeMatchIDMap m with
      | none => simp [hm, htr] at h; exact Or.inl h.symm
      | some tr => simp [hm, htr] at h; exact Or.inr ⟨m, tr, htr, h.symm⟩

theorem TradeMessage_shape (st st' : State) (msg : List Byte) (msgLen ts : Nat)
    (h : TradeMessage st msg msgLen ts = some st') :
    st' = st ∨ ∃ v pv tr, st' = recordTrade st v pv tr := by
  unfold TradeMessage at h
  split_ifs at h with hlen
  · exact Or.inl (Option.some.inj h).symm
  · simp only [Option.bind_eq_bind, Option.bind_eq_some] at h
    obtain ⟨_, _, _, _, n, _, s, _, p, _, m, _, h⟩ := h
    exact Or.inr ⟨_, _, _, (Option.some.inj h).symm⟩

theorem ExecutedOrderMessage_shape (st st' : State) (msg : List Byte) (msgLen ts : Nat)
    (h : ExecutedOrderMessage st msg msgLen ts = some st') :
    st' = st ∨ ∃ v pv tr, st' = recordTrade st v pv tr := by
  unfold ExecutedOrderMessage at h
  split_ifs at h with hlen
  · exact Or.inl (Option.some.inj h).symm
  · simp only [Option.bind_eq_bind, Option.bind_eq_some] at h
    obtain ⟨r, _, n, _, m, _, h⟩ := h
    cases hod : st.activeOrders r with
    | none => simp [hod] at h; exact Or.inl h.symm
    | some od => simp [hod] at h; exact Or.inr ⟨_, _, _, h.symm⟩

theorem ExecutedPriceOrderMessage_shape (st st' : State) (msg : List Byte) (msgLen ts : Nat)
    (h : ExecutedPriceOrderMessage st msg msgLen ts = some st') :
    st' = st ∨ ∃ v pv tr, st' = recordTrade st v pv tr := by
  unfold ExecutedPriceOrderMessage at h
  split_ifs at h with hlen
  · exact Or.inl (Option.some.inj h).symm
  · simp only [Option.bind_eq_bind, Option.bind_eq_some] at h
    obtain ⟨r, _, n, _, m, _, q, _, h⟩ := h
    cases hod : st.activeOrders r with
    | none => simp [hod] at h; exact Or.inl h.symm
    | some od => simp [hod] at h; exact Or.inr ⟨_, _, _, h.symm⟩

theorem CrossTradeMessage_shape (st st' : State) (msg : List Byte) (msgLen ts : Nat)
    (h : CrossTradeMessage st msg msgLen ts = some st') :
    st' = st ∨ ∃ v pv tr, st' = recordTrade st v pv tr := by
  unfold CrossTradeMessage at h
  split_ifs at h with hlen
  · exact Or.inl (Option.some.inj h).symm
  · simp only [Option.bind_eq_bind, Option.bind_eq_some] at h
    obtain ⟨k, _, s, _, p, _, m, _, h⟩ := h
    split_ifs at h with hk
    · exact Or.inr ⟨_, _, _, (Option.some.inj h).symm⟩
    · exact Or.inl (Option.some.inj h).symm

theorem AddOrderMessage_shape (st st' : State) (msg : List Byte) (msgLen : Nat)
    (msgType : Byte) (h : AddOrderMessage st msg msgLen msgType = some st') :
    ∃ ao, st' = { st with activeOrders := ao } := by
  unfold AddOrderMessage at h
  simp only at h
  split_ifs at h
  all_goals first
    | exact ⟨st.activeOrders, (Option.some.inj h).symm⟩
    | (simp only [Option.bind_eq_bind, Option.bind_eq_some] at h
       obtain ⟨_, _, _, _, _, _, _, _, _, _, _, _, h⟩ := h
       exact ⟨_, (Option.some.inj h).symm⟩)

theorem ReplaceOrderMessage_shape (st st' : State) (msg : List Byte) (msgLen : Nat)
    (h : ReplaceOrderMessage st msg msgLen = some st') :
    ∃ ao, st' = { st with activeOrders := ao } := by
  unfold ReplaceOrderMessage at h
  split_ifs at h with hlen
  · exact ⟨st.activeOrders, (Option.some.inj h).symm⟩
  · simp only [Option.bind_eq_bind, Option.bind_eq_some] at h
    obtain ⟨o, _, n, _, p, _, h⟩ := h
    cases hod : st.activeOrders o with
    | none => simp [hod] at h; exact ⟨st.activeOrders, h.symm⟩
    | some od => simp [hod] at h; exact ⟨_, h.symm⟩

theorem DeleteOrderMessage_shape (st st' : State) (msg : List Byte) (msgLen : Nat)
    (h : DeleteOrderMessage st msg msgLen = some st') :
    ∃ ao, st' = { st with activeOrders := ao } := by
  unfold DeleteOrderMessage at h
  split_ifs at h with hlen
  · exact ⟨st.activeOrders, (Option.some.inj h).symm⟩
  · simp only [Option.bind_eq_bind, Option.bind_eq_some] at h
    obtain ⟨o, _, h⟩ := h
    exact ⟨_, (Option.some.inj h).symm⟩

/-- One step changes the order book only, or records one trade, or breaks one trade. -/
theorem processITCH_shape (st st' : State) (msg : List Byte) (msgLen : Nat) (msgType : Byte)
    (ts : Nat) (h : processITCH st msg msgLen msgType ts = some st') :
    (∃ ao, st' = { st with activeOrders := ao }) ∨
      (∃ v pv tr, st' = recordTrade st v pv tr) ∨
      (∃ m tr, st.tradeMatchIDMap m = some tr ∧ st' = breakTrade st m tr) := by
  have same : ∀ {s : State}, s = st → ∃ ao, s = { st with activeOrders := ao } :=
    fun hs => ⟨st.activeOrders, hs⟩
  unfold processITCH at h
  split_ifs at h
  · exact (TradeMessage_shape _ _ _ _ _ h).elim (fun e => Or.inl (same e))
      (fun e => Or.inr (Or.inl e))
  · exact (ExecutedPriceOrderMessage_shape _ _ _ _ _ h).elim (fun e => Or.inl (same e))
      (fun e => Or.inr (Or.inl e))
  · exact (ExecutedOrderMessage_shape _ _ _ _ _ h).elim (fun e => Or.inl (same e))
      (fun e => Or.inr (Or.inl e))
  · exact Or.inl (AddOrderMessage_shape _ _ _ _ _ h)
  · exact Or.inl (AddOrderMessage_shape _ _ _ _ _ h)
  · exact Or.inl (DeleteOrderMessage_shape _ _ _ _ h)
  · exact (CrossTradeMessage_shape _ _ _ _ _ h).elim (fun e => Or.inl (same e))
      (fun e => Or.inr (Or.inl e))
  · exact (BrokenTradeMessage_shape _ _ _ _ h).elim (fun e => Or.inl (same e))
      (fun e => Or.inr (Or.inr e))
  · exact Or.inl (ReplaceOrderMessage_shape _ _ _ _ h)
  · exact Or.inl (same (Option.some.inj h).symm)

/-! ### The ledger invariant -/

theorem IndexInHistory_empty : IndexInHistory State.empty := by
  intro m r h
  simp [State.empty, Map.empty] at h

theorem IndexInHistory_recordTrade (st : State) (v pv : Nat) (tr : TradeRecord)
    (hinv : IndexInHistory st) : IndexInHistory (recordTrade st v pv tr) := by
  intro m r h
  obtain ⟨_, _, h3, h4, h5, h6, _⟩ := recordTrade_spec st v pv tr
  by_cases hm : m = tr.matchID
  · subst hm
    rw [h5] at h
    obtain rfl : tr = r := Option.some.inj h
    exact ⟨rfl, _, h3, by simp⟩
  · rw [h6 m hm] at h
    obtain ⟨hid, hist, hh, hmem⟩ := hinv m r h
    refine ⟨hid, ?_⟩
    by_cases hs : r.stock = tr.stock
    · have hhist : histOf st tr.stock = hist := by simp [histOf, ← hs, hh]
      rw [hs]
      exact ⟨_, h3, hhist ▸ List.mem_append_left _ hmem⟩
    · exact ⟨hist, (h4 _ hs).trans hh, hmem⟩

theorem IndexInHistory_breakTrade (st : State) (m0 : Nat) (tr0 : TradeRecord)
    (hinv : IndexInHistory st) : IndexInHistory (breakTrade st m0 tr0) := by
  intro m r h
  have hne : m ≠ m0 := by
    intro he
    simp [breakTrade, Map.erase, he] at h
  have h' : st.tradeMatchIDMap m = some r := by
    simpa [breakTrade, Map.erase, hne] using h
  obtain ⟨hid, hist, hh, hmem⟩ := hinv m r h'
  refine ⟨hid, ?_⟩
  by_cases hs : r.stock = tr0.stock
  · have hhist : histOf st tr0.stock = hist := by simp [histOf, ← hs, hh]
    refine ⟨hist.eraseP (fun vt => decide (vt.matchID = m0 ∧ vt.msgType = tr0.msgType)),
      by simp [breakTrade, Map.insert, hs, hhist], ?_⟩
    refine (List.mem_eraseP_of_neg ?_).mpr hmem
    simp only [decide_eq_true_eq, not_and]
    intro hr
    exact absurd (hid.symm.trans hr) hne
  · exact ⟨hist, by simpa [breakTrade, Map.insert, hs] using hh, hmem⟩

theorem IndexInHistory_processITCH (st st' : State) (msg : List Byte) (msgLen : Nat)
    (msgType : Byte) (ts : Nat) (h : processITCH st msg msgLen msgType ts = some st')
    (hinv : IndexInHistory st) : IndexInHistory st' := by
  rcases processITCH_shape st st' msg msgLen msgType ts h with
    ⟨ao, rfl⟩ | ⟨v, pv, tr, rfl⟩ | ⟨m, tr, _, rfl⟩
  · exact hinv
  · exact IndexInHistory_recordTrade st v pv tr hinv
  · exact IndexInHistory_breakTrade st m tr hinv

theorem IndexInHistory_processAll (calls : List Call) :
    ∀ st st' : State, processAll st calls = some st' → IndexInHistory st →
      IndexInHistory st' := by
  induction calls with
  | nil =>
    intro st st' h hinv
    obtain rfl : st = st' := Option.some.inj h
    exact hinv
  | cons c cs ih =>
    intro st st' h hinv
    simp only [processAll, Option.bind_eq_some] at h
    obtain ⟨st1, h1, h2⟩ := h
    exact ih st1 st' h2 (IndexInHistory_processITCH st st1 _ _ _ _ h1 hinv)

theorem IndexInHistory_of_reachable (st : State) (h : Reachable st) : IndexInHistory st := by
  obtain ⟨calls, hc⟩ := h
  exact IndexInHistory_processAll calls State.empty st hc IndexInHistory_empty

/-! ### The accumulator against the trades recorded -/

theorem TradeMessage_tradeOf (st st' : State) (c : Call) (hty : c.msgType = tagP)
    (h : TradeMessage st c.msg c.msgLen c.timestamp = some st') :
    (tradeOf st c = none ∧ st'.VWAPaggregator = st.VWAPaggregator) ∨
      ∃ t tr, tradeOf st c = some t ∧ tr.stock = t.stock ∧
        st' = recordTrade st t.shares ((t.shares * t.price) % 2 ^ 64) tr := by
  unfold TradeMessage at h
  split_ifs at h with hlen
  · obtain rfl : st = st' := Option.some.inj h
    exact Or.inl ⟨by simp [tradeOf, hty, hlen], rfl⟩
  · simp only [Option.bind_eq_bind, Option.bind_eq_some] at h
    obtain ⟨_, _, _, _, n, hn, s, hs, p, hp, m, _, h⟩ := h
    refine Or.inr ⟨{ stock := s, shares := n, price := p }, _, ?_, ?_,
      (Option.some.inj h).symm⟩
    · simp [tradeOf, hty, hlen, hn, hs, hp]
    · rfl

theorem ExecutedOrderMessage_tradeOf (st st' : State) (c : Call) (hty : c.msgType = tagE)
    (h : ExecutedOrderMessage st c.msg c.msgLen c.timestamp = some st') :
    (tradeOf st c = none ∧ st'.VWAPaggregator = st.VWAPaggregator) ∨
      ∃ t tr, tradeOf st c = some t ∧ tr.stock = t.stock ∧
        st' = recordTrade st t.shares ((t.shares * t.price) % 2 ^ 64) tr := by
  have hEP : tagE ≠ tagP := by decide
  unfold ExecutedOrderMessage at h
  split_ifs at h with hlen
  · obtain rfl : st = st' := Option.some.inj h
    exact Or.inl ⟨by simp [tradeOf, hty, hEP, hlen], rfl⟩
  · simp only [Option.bind_eq_bind, Option.bind_eq_some] at h
    obtain ⟨r, hr, n, hn, m, _, h⟩ := h
    cases hod : st.activeOrders r with
    | none =>
      simp [hod] at h
      exact Or.inl ⟨by simp [tradeOf, hty, hEP, hlen, hr, hn, hod], by rw [h]⟩
    | some od =>
      simp [hod] at h
      refine Or.inr ⟨{ stock := od.stock, shares := n, price := od.price }, _, ?_, ?_, h.symm⟩
      · simp [tradeOf, hty, hEP, hlen, hr, hn, hod]
      · rfl

theorem ExecutedPriceOrderMessage_tradeOf (st st' : State) (c : Call)
    (hty : c.msgType = tagC)
    (h : ExecutedPriceOrderMessage st c.msg c.msgLen c.timestamp = some st') :
    (tradeOf st c = none ∧ st'.VWAPaggregator = st.VWAPaggregator) ∨
      ∃ t tr, tradeOf st c = some t ∧ tr.stock = t.stock ∧
        st' = recordTrade st t.shares ((t.shares * t.price) % 2 ^ 64) tr := by
  have hCP : tagC ≠ tagP := by decide
  have hCE : tagC ≠ tagE := by decide
  unfold ExecutedPriceOrderMessage at h
  split_ifs at h with hlen
  · obtain rfl : st = st' := Option.some.inj h
    exact Or.inl ⟨by simp [tradeOf, hty, hCP, hCE, hlen], rfl⟩
  · simp only [Option.bind_eq_bind, Option.bind_eq_some] at h
    obtain ⟨r, hr, n, hn, m, _, q, hq, h⟩ := h
    cases hod : st.activeOrders r with
    | none =>
      simp [hod] at h
      exact Or.inl ⟨by simp [tradeOf, hty, hCP, hCE, hlen, hr, hn, hq, hod], by rw [h]⟩
    | some od =>
      simp [hod] at h
      refine Or.inr ⟨{ stock := od.stock, shares := n, price := q }, _, ?_, ?_, h.symm⟩
      · simp [tradeOf, hty, hCP, hCE, hlen, hr, hn, hq, hod]
      · rfl

theorem CrossTradeMessage_tradeOf (st st' : State) (c : Call) (hty : c.msgType = tagQ)
    (hq : ∀ k, read_nbytes (c.msg.drop 11) 8 = some k → k < 2 ^ 32)
    (h : CrossTradeMessage st c.msg c.msgLen c.timestamp = some st') :
    (tradeOf st c = none ∧ st'.VWAPaggregator = st.VWAPaggregator) ∨
      ∃ t tr, tradeOf st c = some t ∧ tr.stock = t.stock ∧
        st' = recordTrade st t.shares ((t.shares * t.price) % 2 ^ 64) tr := by
  have hQP : tagQ ≠ tagP := by decide
  have hQE : tagQ ≠ tagE := by decide
  have hQC : tagQ ≠ tagC := by decide
  unfold CrossTradeMessage at h
  split_ifs at h with hlen
  · obtain rfl : st = st' := Option.some.inj h
    exact Or.inl ⟨by simp [tradeOf, hty, hQP, hQE, hQC, hlen], rfl⟩
  · simp only [Option.bind_eq_bind, Option.bind_eq_some] at h
    obtain ⟨k, hk, s, hs, p, hp, m, _, h⟩ := h
    split_ifs at h with hpos
    · have hk32 : k % 2 ^ 32 = k := Nat.mod_eq_of_lt (hq k hk)
      rw [hk32] at h
      refine Or.inr ⟨{ stock := s, shares := k, price := p }, _, ?_, ?_,
        (Option.some.inj h).symm⟩
      · simp [tradeOf, hty, hQP, hQE, hQC, hlen, hk, hs, hp, hpos]
      · rfl
    · obtain rfl : st = st' := Option.some.inj h
      exact Or.inl ⟨by simp [tradeOf, hty, hQP, hQE, hQC, hlen, hk, hs, hp, hpos], rfl⟩

/-- One step against the specification: either no trade is due and the accumulator is
untouched, or the trade `tradeOf` names is the one recorded. -/
theorem processITCH_tradeOf (st st' : State) (c : Call)
    (hq : c.msgType = tagQ → ∀ k, read_nbytes (c.msg.drop 11) 8 = some k → k < 2 ^ 32)
    (h : processITCH st c.msg c.msgLen c.msgType c.timestamp = some st') :
    (tradeOf st c = none ∧ st'.VWAPaggregator = st.VWAPaggregator) ∨
      ∃ t tr, tradeOf st c = some t ∧ tr.stock = t.stock ∧
        st' = recordTrade st t.shares ((t.shares * t.price) % 2 ^ 64) tr := by
  by_cases hP : c.msgType = tagP
  · rw [hP, processITCH_tagP] at h; exact TradeMessage_tradeOf st st' c hP h
  by_cases hC : c.msgType = tagC
  · rw [hC, processITCH_tagC] at h; exact ExecutedPriceOrderMessage_tradeOf st st' c hC h
  by_cases hE : c.msgType = tagE
  · rw [hE, processITCH_tagE] at h; exact ExecutedOrderMessage_tradeOf st st' c hE h
  by_cases hQ : c.msgType = tagQ
  · rw [hQ, processITCH_tagQ] at h; exact CrossTradeMessage_tradeOf st st' c hQ (hq hQ) h
  · refine Or.inl ⟨by simp [tradeOf, hP, hC, hE, hQ], ?_⟩
    unfold processITCH at h
    simp only [hP, hC, hE, hQ, if_false] at h
    split_ifs at h
    · obtain ⟨ao, rfl⟩ := AddOrderMessage_shape _ _ _ _ _ h; rfl
    · obtain ⟨ao, rfl⟩ := AddOrderMessage_shape _ _ _ _ _ h; rfl
    · obtain ⟨ao, rfl⟩ := DeleteOrderMessage_shape _ _ _ _ h; rfl
    · rcases BrokenTradeMessage_shape _ _ _ _ h with rfl | ⟨m, tr, _, rfl⟩ <;> rfl
    · obtain ⟨ao, rfl⟩ := ReplaceOrderMessage_shape _ _ _ _ h; rfl
    · obtain rfl : st = st' := Option.some.inj h; rfl

theorem State.ext_tables (a b : State) (h1 : a.activeOrders = b.activeOrders)
    (h2 : a.executedTrades = b.executedTrades) (h3 : a.tradeMatchIDMap = b.tradeMatchIDMap)
    (h4 : a.VWAPaggregator = b.VWAPaggregator) : a = b := by
  cases a; cases b; simp only at h1 h2 h3 h4; subst h1 h2 h3 h4; rfl

theorem Map.erase_absent {K V : Type} [DecidableEq K] (m : Map K V) (k : K)
    (h : m k = none) : m.erase k = m := by
  funext k'
  by_cases hk : k' = k
  · subst hk; simp [Map.erase, h]
  · simp [Map.erase, hk]

theorem ReplaceOrderMessage_absent (st : State) (msg : List Byte) (msgLen r : Nat)
    (hbuf : msgLen ≤ msg.length) (hr : read_nbytes (msg.drop 11) 8 = some r)
    (hno : st.activeOrders r = none) : ReplaceOrderMessage st msg msgLen = some st := by
  unfold ReplaceOrderMessage
  by_cases hlen : msgLen < 35
  · simp [hlen]
  · obtain ⟨n, hn⟩ := read_nbytes_some msg 19 8 (by omega)
    obtain ⟨p, hp⟩ := read_4bytes_some msg 31 (by omega)
    simp [hlen, hr, hn, hp, hno]

theorem DeleteOrderMessage_absent (st : State) (msg : List Byte) (msgLen r : Nat)
    (hr : read_nbytes (msg.drop 11) 8 = some r)
    (hno : st.activeOrders r = none) : DeleteOrderMessage st msg msgLen = some st := by
  unfold DeleteOrderMessage
  by_cases hlen : msgLen < 19
  · simp [hlen]
  · simp only [hlen, if_false, hr, Option.bind_eq_bind, Option.some_bind]
    exact congrArg some (State.ext_tables _ _ (Map.erase_absent _ _ hno) rfl rfl rfl)

theorem BrokenTradeMessage_absent (st : State) (msg : List Byte) (msgLen m : Nat)
    (hm : read_nbytes (msg.drop 11) 8 = some m)
    (hno : st.tradeMatchIDMap m = none) : BrokenTradeMessage st msg msgLen = some st := by
  unfold BrokenTradeMessage
  by_cases hlen : msgLen < 19
  · simp [hlen]
  · simp [hlen, hm, hno]

/-! ### The byte reader -/

theorem shift_or_byte (v : Nat) (b : Byte) (hv : v < 2 ^ 56) :
    ((v <<< 8) % 2 ^ 64) ||| b.toNat = v * 256 + b.toNat := by
  have hb : b.toNat < 2 ^ 8 := b.val.isLt
  rw [Nat.shiftLeft_eq, Nat.mod_eq_of_lt (by omega)]
  have := Nat.mul_add_lt_is_or hb v
  rw [Nat.mul_comm] at this
  exact this.symm

theorem read_nbytes_loop_value (n : Nat) :
    ∀ (p : List Byte) (k value : Nat), k + n ≤ 8 → value < 256 ^ k → n ≤ p.length →
      read_nbytes_loop p n value = some (value * 256 ^ n + bigEndian (p.take n)) := by
  induction n with
  | zero =>
    intro p k value _ _ _
    cases p <;> simp [read_nbytes_loop, bigEndian]
  | succ n ih =>
    intro p k value hk hv hp
    cases p with
    | nil => simp at hp
    | cons b p =>
      have hp' : n ≤ p.length := by simpa using hp
      have hb : b.toNat < 256 := b.val.isLt
      have hv56 : value < 2 ^ 56 := by
        have h1 : (256 : Nat) ^ k ≤ 256 ^ 7 := Nat.pow_le_pow_right (by decide) (by omega)
        have h2 : (256 : Nat) ^ 7 = 2 ^ 56 := by norm_num
        omega
      have hnew : value * 256 + b.toNat < 256 ^ (k + 1) := by
        rw [Nat.pow_succ]
        have : value + 1 ≤ 256 ^ k := hv
        nlinarith
      simp only [read_nbytes_loop, shift_or_byte value b hv56]
      rw [ih p (k + 1) _ (by omega) hnew hp']
      simp only [List.take_succ_cons, bigEndian, List.length_take, Nat.min_eq_left hp']
      congr 1
      ring

theorem or_bytes_2 (a b : Byte) :
    ((a.toNat <<< 8) % 2 ^ 16) ||| b.toNat = a.toNat * 256 + b.toNat := by
  have ha : a.toNat < 256 := a.val.isLt
  have hb : b.toNat < 2 ^ 8 := b.val.isLt
  rw [Nat.shiftLeft_eq, Nat.mod_eq_of_lt (by omega)]
  have := Nat.mul_add_lt_is_or hb a.toNat
  rw [Nat.mul_comm] at this
  exact this.symm

theorem or_bytes_4 (a b c d : Byte) :
    ((a.toNat <<< 24) % 2 ^ 32) ||| ((b.toNat <<< 16) % 2 ^ 32) |||
        ((c.toNat <<< 8) % 2 ^ 32) ||| d.toNat =
      a.toNat * 256 ^ 3 + b.toNat * 256 ^ 2 + c.toNat * 256 + d.toNat := by
  have ha : a.toNat < 256 := a.val.isLt
  have hb : b.toNat < 256 := b.val.isLt
  have hc : c.toNat < 256 := c.val.isLt
  have hd : d.toNat < 2 ^ 8 := d.val.isLt
  simp only [Nat.shiftLeft_eq]
  rw [Nat.mod_eq_of_lt (by omega), Nat.mod_eq_of_lt (by omega), Nat.mod_eq_of_lt (by omega)]
  have h1 : a.toNat * 2 ^ 24 ||| b.toNat * 2 ^ 16 = 2 ^ 16 * (a.toNat * 256 + b.toNat) := by
    have e := Nat.mul_add_lt_is_or (show b.toNat * 2 ^ 16 < 2 ^ 24 by omega) a.toNat
    rw [show a.toNat * 2 ^ 24 = 2 ^ 24 * a.toNat by ring, ← e]
    ring
  have h2 : 2 ^ 16 * (a.toNat * 256 + b.toNat) ||| c.toNat * 2 ^ 8 =
      2 ^ 8 * (a.toNat * 256 ^ 2 + b.toNat * 256 + c.toNat) := by
    have e := Nat.mul_add_lt_is_or (show c.toNat * 2 ^ 8 < 2 ^ 16 by omega)
      (a.toNat * 256 + b.toNat)
    rw [← e]
    ring
  have h3 := Nat.mul_add_lt_is_or hd (a.toNat * 256 ^ 2 + b.toNat * 256 + c.toNat)
  rw [h1, h2, ← h3]
  ring

theorem read_2bytes_eq_read_nbytes (p : List Byte) : read_2bytes p = read_nbytes p 2 := by
  match p with
  | [] => rfl
  | [a] => rfl
  | a :: b :: rest =>
    have h := read_nbytes_loop_value 2 (a :: b :: rest) 0 0 (by omega) (by norm_num)
      (by simp)
    have e : read_2bytes (a :: b :: rest) =
        some (((a.toNat <<< 8) % 2 ^ 16) ||| b.toNat) := by
      simp only [read_2bytes, List.getElem?_cons_zero, List.getElem?_cons_succ,
        Option.bind_eq_bind, Option.some_bind]
    rw [read_nbytes, h, e, or_bytes_2]
    simp [bigEndian]

theorem read_4bytes_eq_read_nbytes (p : List Byte) : read_4bytes p = read_nbytes p 4 := by
  match p with
  | [] => rfl
  | [a] => rfl
  | [a, b] => rfl
  | [a, b, c] => rfl
  | a :: b :: c :: d :: rest =>
    have h := read_nbytes_loop_value 4 (a :: b :: c :: d :: rest) 0 0 (by omega) (by norm_num)
      (by simp)
    have e : read_4bytes (a :: b :: c :: d :: rest) =
        some (((a.toNat <<< 24) % 2 ^ 32) ||| ((b.toNat <<< 16) % 2 ^ 32) |||
          ((c.toNat <<< 8) % 2 ^ 32) ||| d.toNat) := by
      simp only [read_4bytes, List.getElem?_cons_zero, List.getElem?_cons_succ,
        Option.bind_eq_bind, Option.some_bind]
    have e2 : bigEndian (List.take 4 (a :: b :: c :: d :: rest)) =
        a.toNat * 256 ^ 3 + (b.toNat * 256 ^ 2 + (c.toNat * 256 ^ 1 + (d.toNat * 256 ^ 0 + 0))) := by
      simp only [List.take_succ_cons, List.take_zero, bigEndian, List.length_cons,
        List.length_nil]
    have hr : read_nbytes (a :: b :: c :: d :: rest) 4 = some (0 * 256 ^ 4 +
        (a.toNat * 256 ^ 3 + (b.toNat * 256 ^ 2 + (c.toNat * 256 ^ 1 +
          (d.toNat * 256 ^ 0 + 0))))) := h.trans (congrArg (fun x => some (0 * 256 ^ 4 + x)) e2)
    have hl := e.trans (congrArg some (or_bytes_4 a b c d))
    have harith : a.toNat * 256 ^ 3 + b.toNat * 256 ^ 2 + c.toNat * 256 + d.toNat =
        0 * 256 ^ 4 + (a.toNat * 256 ^ 3 + (b.toNat * 256 ^ 2 + (c.toNat * 256 ^ 1 +
          (d.toNat * 256 ^ 0 + 0)))) := by ring
    exact hl.trans ((congrArg some harith).trans hr.symm)

/-! ### Trimmed symbols -/

theorem trim_eq_rdropWhile (s : Symbol) :
    trim s = List.rdropWhile isSpace (List.dropWhile isSpace s) := rfl

theorem trim_length_le (s : Symbol) : (trim s).length ≤ s.length := by
  rw [trim_eq_rdropWhile]
  exact (List.rdropWhile_prefix isSpace _).length_le.trans (List.dropWhile_suffix isSpace).length_le

theorem trim_head_not_space (s : Symbol) (c : Byte) (h : (trim s).head? = some c) :
    isSpace c = false := by
  rw [trim_eq_rdropWhile] at h
  obtain ⟨t, ht⟩ := List.rdropWhile_prefix isSpace (List.dropWhile isSpace s)
  have hd : (List.dropWhile isSpace s).head? = some c := by
    rw [← ht]
    cases hx : List.rdropWhile isSpace (List.dropWhile isSpace s) with
    | nil => rw [hx] at h; simp at h
    | cons a l => rw [hx] at h; simpa using h
  have := List.head?_dropWhile_not isSpace s
  rw [hd] at this
  exact this

theorem trim_last_not_space (s : Symbol) (c : Byte) (h : (trim s).getLast? = some c) :
    isSpace c = false := by
  rw [trim_eq_rdropWhile] at h
  have hne : List.rdropWhile isSpace (List.dropWhile isSpace s) ≠ [] := by
    intro e; rw [e] at h; simp at h
  have hl := List.rdropWhile_last_not isSpace (List.dropWhile isSpace s) hne
  rw [List.getLast?_eq_getLast _ hne] at h
  obtain rfl := Option.some.inj h
  simpa using hl

theorem dropWhile_pad_left (l : Nat) (w rest : Symbol) (hw : w ≠ [])
    (hhead : ∀ c, w.head? = some c → isSpace c = false) :
    List.dropWhile isSpace (List.replicate l 32 ++ w ++ rest) = w ++ rest := by
  induction l with
  | zero =>
    cases w with
    | nil => exact absurd rfl hw
    | cons a w =>
      have ha : isSpace a = false := hhead a rfl
      simp [List.dropWhile, ha]
  | succ n ih =>
    have h32 : isSpace 32 = true := by decide
    simp only [List.replicate_succ, List.cons_append]
    rw [List.dropWhile_cons_of_pos h32]
    exact ih

theorem rdropWhile_pad_right (r : Nat) (w : Symbol)
    (hlast : ∀ (hw : w ≠ []), isSpace (w.getLast hw) = false) :
    List.rdropWhile isSpace (w ++ List.replicate r 32) = w := by
  induction r with
  | zero =>
    simp only [List.replicate_zero, List.append_nil]
    rw [List.rdropWhile_eq_self_iff]
    intro hw
    simp [hlast hw]
  | succ n ih =>
    have h32 : isSpace 32 = true := by decide
    rw [List.replicate_succ', ← List.append_assoc, List.rdropWhile_concat_pos _ _ _ h32]
    exact ih

theorem cstring_no_nul (s : Symbol) (h : ∀ c ∈ s, c ≠ 0) : cstring s = s := by
  unfold cstring
  rw [List.takeWhile_eq_self_iff]
  intro x hx
  simpa using h x hx

theorem trim_padded (l r : Nat) (w : Symbol) (hw : w ≠ [])
    (hchars : ∀ c ∈ w, isSpace c = false ∧ c ≠ 0) :
    trim (cstring (List.replicate l 32 ++ w ++ List.replicate r 32)) = w := by
  have hnul : ∀ c ∈ List.replicate l 32 ++ w ++ List.replicate r 32, c ≠ (0 : Byte) := by
    intro c hc
    simp only [List.mem_append, List.mem_replicate] at hc
    rcases hc with (⟨_, rfl⟩ | hc) | ⟨_, rfl⟩
    · decide
    · exact (hchars c hc).2
    · decide
  rw [cstring_no_nul _ hnul, trim_eq_rdropWhile, dropWhile_pad_left l w _ hw]
  · exact rdropWhile_pad_right r w (fun hw' => (hchars _ (List.getLast_mem hw')).1)
  · intro c hc
    exact (hchars c (List.mem_of_mem_head? hc)).1

/-! ### Ledger volume against accumulator volume -/

theorem TradeMessage_shape_volume (st st' : State) (msg : List Byte) (msgLen ts : Nat)
    (h : TradeMessage st msg msgLen ts = some st') :
    st' = st ∨ ∃ pv tr, st' = recordTrade st tr.volume pv tr := by
  unfold TradeMessage at h
  split_ifs at h with hlen
  · exact Or.inl (Option.some.inj h).symm
  · simp only [Option.bind_eq_bind, Option.bind_eq_some] at h
    obtain ⟨_, _, _, _, n, _, s, _, p, _, m, _, h⟩ := h
    exact Or.inr ⟨_, _, (Option.some.inj h).symm⟩

theorem ExecutedOrderMessage_shape_volume (st st' : State) (msg : List Byte)
    (msgLen ts : Nat) (h : ExecutedOrderMessage st msg msgLen ts = some st') :
    st' = st ∨ ∃ pv tr, st' = recordTrade st tr.volume pv tr := by
  unfold ExecutedOrderMessage at h
  split_ifs at h with hlen
  · exact Or.inl (Option.some.inj h).symm
  · simp only [Option.bind_eq_bind, Option.bind_eq_some] at h
    obtain ⟨r, _, n, _, m, _, h⟩ := h
    cases hod : st.activeOrders r with
    | none => simp [hod] at h; exact Or.inl h.symm
    | some od => simp [hod] at h; exact Or.inr ⟨_, _, h.symm⟩

theorem ExecutedPriceOrderMessage_shape_volume (st st' : State) (msg : List Byte)
    (msgLen ts : Nat) (h : ExecutedPriceOrderMessage st msg msgLen ts = some st') :
    st' = st ∨ ∃ pv tr, st' = recordTrade st tr.volume pv tr := by
  unfold ExecutedPriceOrderMessage at h
  split_ifs at h with hlen
  · exact Or.inl (Option.some.inj h).symm
  · simp only [Option.bind_eq_bind, Option.bind_eq_some] at h
    obtain ⟨r, _, n, _, m, _, q, _, h⟩ := h
    cases hod : st.activeOrders r with
    | none => simp [hod] at h; exact Or.inl h.symm
    | some od => simp [hod] at h; exact Or.inr ⟨_, _, h.symm⟩

theorem CrossTradeMessage_shape_volume (st st' : State) (msg : List Byte) (msgLen ts : Nat)
    (h : CrossTradeMessage st msg msgLen ts = some st') :
    st' = st ∨ ∃ pv tr, st' = recordTrade st tr.volume pv tr := by
  unfold CrossTradeMessage at h
  split_ifs at h with hlen
  · exact Or.inl (Option.some.inj h).symm
  · simp only [Option.bind_eq_bind, Option.bind_eq_some] at h
    obtain ⟨k, _, s, _, p, _, m, _, h⟩ := h
    split_ifs at h with hk
    · exact Or.inr ⟨_, _, (Option.some.inj h).symm⟩
    · exact Or.inl (Option.some.inj h).symm

/-- A step other than Broken-Trade changes the order book only, or records one trade
whose stored volume is the volume added to the accumulator. -/
theorem processITCH_shape_volume (st st' : State) (msg : List Byte) (msgLen : Nat)
    (msgType : Byte) (ts : Nat) (hB : msgType ≠ tagB)
    (h : processITCH st msg msgLen msgType ts = some st') :
    (∃ ao, st' = { st with activeOrders := ao }) ∨
      ∃ pv tr, st' = recordTrade st tr.volume pv tr := by
  have same : ∀ {s : State}, s = st → ∃ ao, s = { st with activeOrders := ao } :=
    fun hs => ⟨st.activeOrders, hs⟩
  unfold processITCH at h
  split_ifs at h
  · exact (TradeMessage_shape_volume _ _ _ _ _ h).elim (fun e => Or.inl (same e)) Or.inr
  · exact (ExecutedPriceOrderMessage_shape_volume _ _ _ _ _ h).elim
      (fun e => Or.inl (same e)) Or.inr
  · exact (ExecutedOrderMessage_shape_volume _ _ _ _ _ h).elim
      (fun e => Or.inl (same e)) Or.inr
  · exact Or.inl (AddOrderMessage_shape _ _ _ _ _ h)
  · exact Or.inl (AddOrderMessage_shape _ _ _ _ _ h)
  · exact Or.inl (DeleteOrderMessage_shape _ _ _ _ h)
  · exact (CrossTradeMessage_shape_volume _ _ _ _ _ h).elim (fun e => Or.inl (same e)) Or.inr
  · exact Or.inl (ReplaceOrderMessage_shape _ _ _ _ h)
  · exact Or.inl (same (Option.some.inj h).symm)

theorem historyVolume_append (h : List TradeRecord) (tr : TradeRecord) :
    historyVolume (h ++ [tr]) = historyVolume h + tr.volume := by
  simp [historyVolume]

theorem volume_agrees_recordTrade (st : State) (pv : Nat) (tr : TradeRecord)
    (hinv : ∀ s, (aggOf st s).volume = historyVolume (histOf st s) % 2 ^ 64) :
    ∀ s, (aggOf (recordTrade st tr.volume pv tr) s).volume =
      historyVolume (histOf (recordTrade st tr.volume pv tr) s) % 2 ^ 64 := by
  intro s
  obtain ⟨h1, h2⟩ := recordTrade_aggOf st tr.volume pv tr
  obtain ⟨_, _, h3, h4, _⟩ := recordTrade_spec st tr.volume pv tr
  by_cases hs : s = tr.stock
  · subst hs
    have hh : histOf (recordTrade st tr.volume pv tr) tr.stock = histOf st tr.stock ++ [tr] := by
      simp [histOf, h3]
    rw [h1, hh, historyVolume_append, hinv tr.stock]
    exact Nat.mod_add_mod _ _ _
  · have hh : histOf (recordTrade st tr.volume pv tr) s = histOf st s := by
      simp [histOf, h4 s hs]
    rw [h2 s hs, hh]
    exact hinv s

theorem volume_agrees_processAll (calls : List Call) :
    ∀ st st' : State, (∀ c ∈ calls, c.msgType ≠ tagB) → processAll st calls = some st' →
      (∀ s, (aggOf st s).volume = historyVolume (histOf st s) % 2 ^ 64) →
      ∀ s, (aggOf st' s).volume = historyVolume (histOf st' s) % 2 ^ 64 := by
  induction calls with
  | nil =>
    intro st st' _ h hinv
    obtain rfl : st = st' := Option.some.inj h
    exact hinv
  | cons c cs ih =>
    intro st st' hB h hinv
    simp only [processAll, Option.bind_eq_some] at h
    obtain ⟨st1, h1, h2⟩ := h
    refine ih st1 st' (fun c' hc' => hB c' (List.mem_cons_of_mem _ hc')) h2 ?_
    rcases processITCH_shape_volume st st1 _ _ _ _ (hB c (List.mem_cons_self _ _)) h1 with
      ⟨ao, rfl⟩ | ⟨pv, tr, rfl⟩
    · exact hinv
    · exact volume_agrees_recordTrade st pv tr hinv

/-! ### One step of an aggregate, with its contribution -/

theorem CrossTradeMessage_tradeOf_narrow (st st' : State) (c : Call) (hty : c.msgType = tagQ)
    (h : CrossTradeMessage st c.msg c.msgLen c.timestamp = some st') :
    (tradeOf st c = none ∧ st'.VWAPaggregator = st.VWAPaggregator) ∨
      ∃ t tr, tradeOf st c = some t ∧ tr.stock = t.stock ∧
        st' = recordTrade st (t.shares % 2 ^ 32) ((t.shares * t.price) % 2 ^ 64) tr := by
  have hQP : tagQ ≠ tagP := by decide
  have hQE : tagQ ≠ tagE := by decide
  have hQC : tagQ ≠ tagC := by decide
  unfold CrossTradeMessage at h
  split_ifs at h with hlen
  · obtain rfl : st = st' := Option.some.inj h
    exact Or.inl ⟨by simp [tradeOf, hty, hQP, hQE, hQC, hlen], rfl⟩
  · simp only [Option.bind_eq_bind, Option.bind_eq_some] at h
    obtain ⟨k, hk, s, hs, p, hp, m, _, h⟩ := h
    split_ifs at h with hpos
    · refine Or.inr ⟨{ stock := s, shares := k, price := p }, _, ?_, ?_,
        (Option.some.inj h).symm⟩
      · simp [tradeOf, hty, hQP, hQE, hQC, hlen, hk, hs, hp, hpos]
      · rfl
    · obtain rfl : st = st' := Option.some.inj h
      exact Or.inl ⟨by simp [tradeOf, hty, hQP, hQE, hQC, hlen, hk, hs, hp, hpos], rfl⟩

/-- One step against `contribution`: either no trade is due and the accumulator is
untouched, or the trade `tradeOf` names is recorded with the amounts of `contribution`. -/
theorem processITCH_tradeOf_narrow (st st' : State) (c : Call)
    (h : processITCH st c.msg c.msgLen c.msgType c.timestamp = some st') :
    (tradeOf st c = none ∧ st'.VWAPaggregator = st.VWAPaggregator) ∨
      ∃ t tr, tradeOf st c = some t ∧ tr.stock = t.stock ∧
        st' = recordTrade st (if c.msgType = tagQ then t.shares % 2 ^ 32 else t.shares)
          ((t.shares * t.price) % 2 ^ 64) tr := by
  by_cases hQ : c.msgType = tagQ
  · rw [hQ, processITCH_tagQ] at h
    rcases CrossTradeMessage_tradeOf_narrow st st' c hQ h with h0 | ⟨t, tr, h1, h2, h3⟩
    · exact Or.inl h0
    · exact Or.inr ⟨t, tr, h1, h2, by rw [if_pos hQ]; exact h3⟩
  · rcases processITCH_tradeOf st st' c (fun e => absurd e hQ) h with h0 | ⟨t, tr, h1, h2, h3⟩
    · exact Or.inl h0
    · exact Or.inr ⟨t, tr, h1, h2, by rw [if_neg hQ]; exact h3⟩

theorem processITCH_aggOf_contribution (st st' : State) (c : Call) (s : Symbol)
    (h : processITCH st c.msg c.msgLen c.msgType c.timestamp = some st') :
    (aggOf st' s = aggOf st s ∧ contribution st c s = (0, 0)) ∨
      aggOf st' s =
        { volume := ((aggOf st s).volume + (contribution st c s).1) % 2 ^ 64,
          priceVolume := ((aggOf st s).priceVolume + (contribution st c s).2) % 2 ^ 64 } := by
  rcases processITCH_tradeOf_narrow st st' c h with ⟨hnone, hagg⟩ | ⟨t, tr, hsome, hstock, rfl⟩
  · exact Or.inl ⟨by simp [aggOf, hagg], by simp [contribution, hnone]⟩
  · obtain ⟨h1, h2⟩ := recordTrade_aggOf st
      (if c.msgType = tagQ then t.shares % 2 ^ 32 else t.shares)
      ((t.shares * t.price) % 2 ^ 64) tr
    by_cases hs : t.stock = s
    · have hs' : tr.stock = s := hstock.trans hs
      rw [hs'] at h1
      refine Or.inr ?_
      rw [h1]
      simp [contribution, hsome, hs]
    · have hs' : s ≠ tr.stock := fun e => hs (hstock.symm.trans e.symm)
      exact Or.inl ⟨h2 s hs', by simp [contribution, hsome, hs]⟩

/-! ### The loop of `main` -/

theorem timestampOf_some (msg : List Byte) : ∃ t, timestampOf msg = some t := by
  unfold timestampOf
  by_cases h : msg.length ≥ 11
  · obtain ⟨t, ht⟩ := read_nbytes_some msg 5 6 (by omega)
    exact ⟨t, by simp [h, ht]⟩
  · exact ⟨0, by simp [h]⟩

theorem timestampOf_hourOf (msg : List Byte) (t : Nat) (h : timestampOf msg = some t) :
    t / 3600000000000 = hourOf msg := by
  simp [hourOf, h]

theorem processFrame_total (st : State) (msg : List Byte) (hne : msg ≠ []) :
    ∃ st', processFrame st msg = some st' := by
  obtain ⟨t, ht⟩ := timestampOf_some msg
  cases msg with
  | nil => exact absurd rfl hne
  | cons b rest =>
    obtain ⟨st', h⟩ := processITCH_total st (b :: rest) (b :: rest).length b t (Nat.le_refl _)
    exact ⟨st', by simp only [processFrame, ht, List.getElem?_cons_zero, Option.bind_eq_bind,
      Option.some_bind, h]⟩

theorem hourLoop_eq (agg : Map Symbol TradeAggregate) (msgHour : Nat) (fuel : Nat) :
    ∀ (currentHour : Nat) (reports : List Report), fuel = msgHour - currentHour →
      hourLoop agg msgHour fuel currentHour reports =
        (max currentHour msgHour,
          reports ++ (List.range' currentHour (msgHour - currentHour)).map
            (fun h => (h, agg))) := by
  induction fuel with
  | zero =>
    intro cur reports hf
    have hle : msgHour ≤ cur := by omega
    simp [hourLoop, ← hf, Nat.max_eq_left hle]
  | succ n ih =>
    intro cur reports hf
    have hgt : msgHour > cur := by omega
    have hn : n = msgHour - (cur + 1) := by omega
    simp only [hourLoop, hgt, if_true]
    rw [ih (cur + 1) _ hn, ← hf, ← hn, List.range'_succ, List.map_cons, List.append_assoc]
    have h1 : max (cur + 1) msgHour = msgHour := Nat.max_eq_right (by omega)
    have h2 : max cur msgHour = msgHour := Nat.max_eq_right (by omega)
    rw [h1, h2]
    rfl

/-- The body of the loop on a payload with at least one byte: the reports of the hours
from `currentHour` up to the hour of the payload are emitted with the accumulator as it is
before the payload, then the payload is processed. -/
theorem loopBody_eq (ls : LoopState) (msg : List Byte) (st' : State)
    (h : processFrame ls.tables msg = some st') :
    loopBody ls msg = some
      { iffirstMsg := false,
        currentHour := max (if ls.iffirstMsg then hourOf msg else ls.currentHour) (hourOf msg),
        tables := st',
        reports := ls.reports ++
          (List.range' (if ls.iffirstMsg then hourOf msg else ls.currentHour)
            (hourOf msg - (if ls.iffirstMsg then hourOf msg else ls.currentHour))).map
              (fun h => (h, ls.tables.VWAPaggregator)) } := by
  obtain ⟨t, ht⟩ := timestampOf_some msg
  have hh := timestampOf_hourOf msg t ht
  cases msg with
  | nil => simp [processFrame] at h
  | cons b rest =>
    simp only [processFrame, ht, List.getElem?_cons_zero, Option.bind_eq_bind,
      Option.some_bind] at h
    simp only [loopBody, ht, List.getElem?_cons_zero, Option.bind_eq_bind, Option.some_bind,
      h, hh]
    rw [hourLoop_eq _ _ _ _ _ rfl]

theorem mainLoop_append (pre : List (List Byte)) (msg : List Byte) :
    ∀ ls : LoopState, (∀ m ∈ pre, m ≠ []) →
      mainLoop ls (pre ++ [msg]) = (mainLoop ls pre).bind (fun ls' => mainLoop ls' [msg]) := by
  induction pre with
  | nil => intro ls _; simp [mainLoop]
  | cons a pre ih =>
    intro ls hne
    have ha : a.length ≠ 0 := by
      have := hne a (List.mem_cons_self _ _)
      simpa using this
    simp only [List.cons_append, mainLoop, ha, if_false]
    cases hb : loopBody ls a with
    | none => simp
    | some ls1 =>
      simp only [Option.some_bind]
      exact ih ls1 (fun m hm => hne m (List.mem_cons_of_mem _ hm))

theorem processFeed_append (pre : List (List Byte)) (msg : List Byte) :
    ∀ st : State, processFeed st (pre ++ [msg]) =
      (processFeed st pre).bind (fun st' => processFrame st' msg) := by
  induction pre with
  | nil => intro st; cases h : processFrame st msg <;> simp [processFeed, h]
  | cons a pre ih =>
    intro st
    simp only [List.cons_append, processFeed]
    cases hb : processFrame st a with
    | none => simp
    | some st1 => simp only [Option.some_bind]; exact ih st1


theorem mainLoop_invariant_single (m : List Byte) (hm : m ≠ []) :
    ∃ ls, mainLoop LoopState.init [m] = some ls ∧ LoopInvariant [m] m m ls := by
  obtain ⟨st', hst'⟩ := processFrame_total State.empty m hm
  have hlen : m.length ≠ 0 := by simpa using hm
  have hbody := loopBody_eq LoopState.init m st' hst'
  simp only [LoopState.init, if_true, Nat.sub_self, List.range'_zero, List.map_nil,
    List.append_nil, Nat.max_self] at hbody
  refine ⟨{ iffirstMsg := false, currentHour := hourOf m, tables := st', reports := [] },
    ?_, rfl, rfl, ?_, ?_, ?_⟩
  · simp only [mainLoop, hlen, if_false, LoopState.init, hbody, Option.some_bind]
  · simp only [processFeed, hst', Option.some_bind]
  · simp
  · intro r hr; simp at hr

theorem hour_le_last (pre : List (List Byte)) (b : List Byte)
    (hsp : List.Pairwise (fun a b => hourOf a ≤ hourOf b) pre)
    (hb : pre.getLast? = some b) : ∀ x ∈ pre, hourOf x ≤ hourOf b := by
  intro x hx
  have hp : pre ≠ [] := List.ne_nil_of_mem hx
  rw [List.getLast?_eq_getLast _ hp] at hb
  have hb' : pre.getLast hp = b := Option.some.inj hb
  have hinit : pre = pre.dropLast ++ [b] := by
    rw [← hb']; exact (List.dropLast_append_getLast hp).symm
  rw [hinit] at hx hsp
  rw [List.pairwise_append] at hsp
  rcases List.mem_append.mp hx with hx | hx
  · exact hsp.2.2 x hx _ (by simp)
  · simp only [List.mem_singleton] at hx; rw [hx]

theorem filter_hour_snoc_lt (pre : List (List Byte)) (m : List Byte) (h : Nat)
    (hlt : h < hourOf m) :
    List.filter (fun x => decide (hourOf x ≤ h)) (pre ++ [m]) =
      List.filter (fun x => decide (hourOf x ≤ h)) pre := by
  have h2 : List.filter (fun x => decide (hourOf x ≤ h)) [m] = [] := by
    rw [List.filter_eq_nil_iff]
    intro a ha
    simp only [List.mem_singleton] at ha
    subst ha
    simp only [decide_eq_true_eq]
    omega
  rw [List.filter_append, h2, List.append_nil]

theorem mainLoop_invariant_snoc (pre : List (List Byte)) (a b m : List Byte)
    (ls : LoopState) (hm : m ≠ []) (hpre : ∀ x ∈ pre, x ≠ [])
    (hsp : List.Pairwise (fun a b => hourOf a ≤ hourOf b) pre)
    (hle : ∀ x ∈ pre, hourOf x ≤ hourOf m)
    (ha : pre.head? = some a) (hb : pre.getLast? = some b)
    (hls : mainLoop LoopState.init pre = some ls) (hinv : LoopInvariant pre a b ls) :
    ∃ ls', mainLoop LoopState.init (pre ++ [m]) = some ls' ∧
      LoopInvariant (pre ++ [m]) a m ls' := by
  obtain ⟨hfirst, hcur, hfeed, hmap, hrep⟩ := hinv
  obtain ⟨st', hst'⟩ := processFrame_total ls.tables m hm
  have hlen : m.length ≠ 0 := by simpa using hm
  have hall := hour_le_last pre b hsp hb
  have hbm : hourOf b ≤ hourOf m := hle b (List.mem_of_mem_getLast? hb)
  have hab : hourOf a ≤ hourOf b := hall a (List.mem_of_mem_head? ha)
  have hbody := loopBody_eq ls m st' hst'
  simp only [hfirst, Bool.false_eq_true, if_false, hcur, Nat.max_eq_right hbm] at hbody
  refine ⟨{ iffirstMsg := false, currentHour := hourOf m, tables := st',
            reports := ls.reports ++
              (List.range' (hourOf b) (hourOf m - hourOf b)).map
                (fun h => (h, ls.tables.VWAPaggregator)) }, ?_, rfl, rfl, ?_, ?_, ?_⟩
  · rw [mainLoop_append pre m _ hpre, hls]
    simp only [Option.some_bind, mainLoop, hlen, if_false, hbody]
  · rw [processFeed_append, hfeed]
    exact hst'
  · have e : (List.range' (hourOf b) (hourOf m - hourOf b)).map
        (Prod.fst ∘ fun h => (h, ls.tables.VWAPaggregator)) =
          List.range' (hourOf b) (hourOf m - hourOf b) := by
      simp [Function.comp_def]
    have e2 := List.range'_append (hourOf a) (hourOf b - hourOf a) (hourOf m - hourOf b) 1
    rw [Nat.one_mul, Nat.add_sub_cancel' hab] at e2
    simp only [List.map_append, hmap, List.map_map, e, e2]
    congr 1
    omega
  · intro r hr
    rcases List.mem_append.mp hr with hr | hr
    · obtain ⟨st, hst, hagg⟩ := hrep r hr
      have hr1 : r.1 < hourOf b := by
        have : r.1 ∈ ls.reports.map Prod.fst := List.mem_map_of_mem _ hr
        rw [hmap, List.mem_range'_1] at this
        omega
      exact ⟨st, by rw [filter_hour_snoc_lt pre m r.1 (by omega)]; exact hst, hagg⟩
    · simp only [List.mem_map, List.mem_range'_1] at hr
      obtain ⟨h, ⟨hh1, hh2⟩, rfl⟩ := hr
      refine ⟨ls.tables, ?_, rfl⟩
      have h1 : List.filter (fun x => decide (hourOf x ≤ h)) pre = pre := by
        rw [List.filter_eq_self]
        intro x hx
        simp only [decide_eq_true_eq]
        exact (hall x hx).trans hh1
      rw [filter_hour_snoc_lt pre m h (by omega), h1]
      exact hfeed

theorem mainLoop_invariant_reverse (rev : List (List Byte)) :
    rev ≠ [] → (∀ m ∈ rev, m ≠ []) →
      List.Pairwise (fun a b => hourOf a ≤ hourOf b) rev.reverse →
      ∃ a b ls, rev.reverse.head? = some a ∧ rev.reverse.getLast? = some b ∧
        mainLoop LoopState.init rev.reverse = some ls ∧ LoopInvariant rev.reverse a b ls := by
  induction rev with
  | nil => intro hne; exact absurd rfl hne
  | cons m rest ih =>
    intro _ hframes hsorted
    have hm : m ≠ [] := hframes m (List.mem_cons_self _ _)
    rw [List.reverse_cons] at hsorted ⊢
    by_cases hr : rest = []
    · subst hr
      obtain ⟨ls, hls, hinv⟩ := mainLoop_invariant_single m hm
      exact ⟨m, m, ls, rfl, rfl, hls, hinv⟩
    · rw [List.pairwise_append] at hsorted
      obtain ⟨hsp, _, hle⟩ := hsorted
      have hpre : ∀ x ∈ rest.reverse, x ≠ [] := fun x hx =>
        hframes x (List.mem_cons_of_mem _ (List.mem_reverse.mp hx))
      obtain ⟨a, b, ls, ha, hb, hls, hinv⟩ :=
        ih hr (fun x hx => hframes x (List.mem_cons_of_mem _ hx)) hsp
      obtain ⟨ls', hls', hinv'⟩ := mainLoop_invariant_snoc rest.reverse a b m ls hm hpre hsp
        (fun x hx => hle x hx m (List.mem_singleton_self m)) ha hb hls hinv
      refine ⟨a, m, ls', ?_, ?_, hls', hinv'⟩
      · rw [List.head?_append_of_ne_nil _ (by simpa using hr)]
        exact ha
      · simp

/-- The state of the loop of `main` after a non-empty feed of non-empty payloads with
non-decreasing hours. -/
theorem mainLoop_invariant (feed : List (List Byte)) (hne : feed ≠ [])
    (hframes : ∀ m ∈ feed, m ≠ [])
    (hsorted : List.Pairwise (fun a b => hourOf a ≤ hourOf b) feed) :
    ∃ ls, mainLoop LoopState.init feed = some ls ∧
      LoopInvariant feed (feed.head hne) (feed.getLast hne) ls := by
  have h := mainLoop_invariant_reverse feed.reverse (by simpa using hne)
    (fun m hm => hframes m (List.mem_reverse.mp hm)) (by simpa using hsorted)
  rw [List.reverse_reverse] at h
  obtain ⟨a, b, ls, ha, hb, hls, hinv⟩ := h
  rw [List.head?_eq_head hne] at ha
  rw [List.getLast?_eq_getLast _ hne] at hb
  obtain rfl := Option.some.inj ha
  obtain rfl := Option.some.inj hb
  exact ⟨ls, hls, hinv⟩

theorem readFrames_nonempty (fuel : Nat) :
    ∀ bytes : List Byte, ∀ m ∈ readFrames fuel bytes, m ≠ [] := by
  induction fuel with
  | zero => intro bytes m hm; simp [readFrames] at hm
  | succ n ih =>
    intro bytes m hm
    unfold readFrames at hm
    cases h2 : read_2bytes bytes with
    | none => simp [h2] at hm
    | some msgLen =>
      simp only [h2] at hm
      split_ifs at hm with h0 hle
      · simp at hm
      · rcases List.mem_cons.mp hm with rfl | hm
        · intro he
          have := congrArg List.length he
          simp only [List.length_take, List.length_nil] at this
          omega
        · exact ih _ m hm
      · simp at hm

theorem read_2bytes_none_of_short (bytes : List Byte) (h : bytes.length < 2) :
    read_2bytes bytes = none := by
  match bytes with
  | [] => rfl
  | [a] => rfl
  | a :: b :: rest => simp only [List.length_cons] at h; omega

/-- Fuel beyond the length of the stream changes nothing. -/
theorem readFrames_fuel (fuel : Nat) :
    ∀ bytes : List Byte, bytes.length ≤ fuel →
      readFrames (fuel + 1) bytes = readFrames fuel bytes := by
  induction fuel with
  | zero =>
    intro bytes h
    have h2 := read_2bytes_none_of_short bytes (by omega)
    simp [readFrames, h2]
  | succ n ih =>
    intro bytes h
    rw [readFrames, readFrames]
    cases h2 : read_2bytes bytes with
    | none => rfl
    | some msgLen =>
      simp only
      split_ifs with h0 hle
      · rfl
      · rw [ih]
        simp only [List.length_drop] at hle ⊢
        omega
      · rfl

/-! ## Claims -/

/-- C5: after a well-formed Add (`A` of length at least 36 or `F` of length at least 40)
with order reference `r` followed by a well-formed Delete (`D` of length at least 19) with
the same reference, an Order-Executed message (`E`, and likewise `C`) with reference `r`
is a no-op: the whole state (order book, histories, match-id index, accumulator) after it
is the state before it. -/
theorem C5_execute_after_delete_noop (st : State) (a d e : Call) (r : Nat)
    (ha : a.msgType = tagA ∧ 36 ≤ a.msgLen ∨ a.msgType = tagF ∧ 40 ≤ a.msgLen)
    (hab : a.inBounds) (har : read_nbytes (a.msg.drop 11) 8 = some r)
    (hd : d.msgType = tagD ∧ 19 ≤ d.msgLen) (hdr : read_nbytes (d.msg.drop 11) 8 = some r)
    (he : e.msgType = tagE ∨ e.msgType = tagC) (heb : e.inBounds)
    (her : read_nbytes (e.msg.drop 11) 8 = some r) :
    ∃ st2, processAll st [a, d] = some st2 ∧
      processITCH st2 e.msg e.msgLen e.msgType e.timestamp = some st2 := by
  obtain ⟨sd, k, s, p, _, _, _, _, hadd⟩ :=
    AddOrderMessage_wf st a.msg a.msgLen a.msgType r hab ha har
  have hA : processITCH st a.msg a.msgLen a.msgType a.timestamp = _ :=
    (processITCH_add st a.msg a.msgLen a.msgType a.timestamp
      (by rcases ha with h | h; exact Or.inl h.1; exact Or.inr h.1)).trans hadd
  refine ⟨{ st with
    activeOrders := (st.activeOrders.insert r
      { stock := s, price := p, side := sd, shares := k }).erase r }, ?_, ?_⟩
  · simp only [processAll, hA, Option.some_bind, hd.1, processITCH_tagD]
    rw [DeleteOrderMessage_wf _ d.msg d.msgLen r hd.2 hdr]
    rfl
  · rcases he with he | he
    · rw [he, processITCH_tagE]
      exact ExecutedOrderMessage_absent _ _ _ _ r heb her (Map.erase_self _ _)
    · rw [he, processITCH_tagC]
      exact ExecutedPriceOrderMessage_absent _ _ _ _ r heb her (Map.erase_self _ _)

/-- Witness of C5: Add ref 1, Delete ref 1, then Execute ref 1, from the empty state. -/
theorem C5_execute_after_delete_noop_witness :
    ∃ st2, processAll State.empty [callOf msgAddAAPL, callOf msgDelete1] = some st2 ∧
      processITCH st2 msgExec1 31 tagE 0 = some st2 :=
  C5_execute_after_delete_noop State.empty (callOf msgAddAAPL) (callOf msgDelete1)
    (callOf msgExec1) 1 (Or.inl (by decide)) (by decide) (by decide) (by decide) (by decide)
    (Or.inl (by decide)) (by decide) (by decide)

/-- C6, counterexample: with old and new reference equal (Add ref 1, Replace 1 by 1), the
Execute on ref 1 is not a no-op: it creates the aggregate of `AAPL`. -/
theorem C6_counterexample_same_ref :
    ∃ st2 st3, processAll State.empty [callOf msgAddAAPL, callOf msgReplace11] = some st2 ∧
      processITCH st2 msgExec1 31 tagE 0 = some st3 ∧
      st2.VWAPaggregator symAAPL = none ∧
      st3.VWAPaggregator symAAPL = some { volume := 50, priceVolume := 150000000 } :=
  ⟨_, _, rfl, rfl, by decide, by decide⟩

/-- C6 (amended): for order references `X ≠ Y`, after a well-formed Add with reference `X`
followed by a well-formed Replace (`U` of length at least 35) with old reference `X`, new
reference `Y` and price `p`, an Order-Executed message (`E`) with reference `X` is a no-op:
the whole state after it is the state before it. -/
theorem C6_execute_old_ref_after_replace_noop (st : State) (a u e : Call) (x y p : Nat)
    (ha : a.msgType = tagA ∧ 36 ≤ a.msgLen ∨ a.msgType = tagF ∧ 40 ≤ a.msgLen)
    (hab : a.inBounds) (hax : read_nbytes (a.msg.drop 11) 8 = some x)
    (hu : u.msgType = tagU ∧ 35 ≤ u.msgLen)
    (hux : read_nbytes (u.msg.drop 11) 8 = some x)
    (huy : read_nbytes (u.msg.drop 19) 8 = some y)
    (hup : read_4bytes (u.msg.drop 31) = some p)
    (hxy : x ≠ y)
    (he : e.msgType = tagE) (heb : e.inBounds)
    (hex : read_nbytes (e.msg.drop 11) 8 = some x) :
    ∃ st2, processAll st [a, u] = some st2 ∧
      processITCH st2 e.msg e.msgLen e.msgType e.timestamp = some st2 := by
  obtain ⟨sd, k, s, q, _, _, _, _, hadd⟩ :=
    AddOrderMessage_wf st a.msg a.msgLen a.msgType x hab ha hax
  have hA : processITCH st a.msg a.msgLen a.msgType a.timestamp = _ :=
    (processITCH_add st a.msg a.msgLen a.msgType a.timestamp
      (by rcases ha with h | h; exact Or.inl h.1; exact Or.inr h.1)).trans hadd
  refine ⟨{ st with
    activeOrders := ((st.activeOrders.insert x
      { stock := s, price := q, side := sd, shares := k }).erase x).insert y
        { stock := s, price := p, side := sd, shares := k } }, ?_, ?_⟩
  · simp only [processAll, hA, Option.some_bind, hu.1, processITCH_tagU]
    rw [ReplaceOrderMessage_wf _ u.msg u.msgLen x y p _ hu.2 hux huy hup (Map.insert_self _ _ _)]
    rfl
  · rw [he, processITCH_tagE]
    refine ExecutedOrderMessage_absent _ _ _ _ x heb hex ?_
    show Map.insert (Map.erase _ x) y _ x = none
    rw [Map.insert_of_ne _ _ _ _ hxy, Map.erase_self]

/-- Witness of C6: Add ref 1, Replace 1 by 2, then Execute ref 1, from the empty state. -/
theorem C6_execute_old_ref_after_replace_noop_witness :
    ∃ st2, processAll State.empty [callOf msgAddAAPL, callOf msgReplace12] = some st2 ∧
      processITCH st2 msgExec1 31 tagE 0 = some st2 :=
  C6_execute_old_ref_after_replace_noop State.empty (callOf msgAddAAPL) (callOf msgReplace12)
    (callOf msgExec1) 1 2 3000000 (Or.inl (by decide)) (by decide) (by decide) (by decide)
    (by decide) (by decide) (by decide) (by decide) (by decide) (by decide) (by decide)

/-- C9: Broken-Trade is idempotent: a `B` message processed a second time leaves the state
that the first processing produced (histories, match-id index, order book and accumulator)
as it is. -/
theorem C9_broken_trade_idempotent (st : State) (msg : List Byte) (msgLen ts ts2 : Nat)
    (hbuf : msgLen ≤ msg.length) :
    ∃ st1, processITCH st msg msgLen tagB ts = some st1 ∧
      processITCH st1 msg msgLen tagB ts2 = some st1 := by
  simp only [processITCH_tagB]
  unfold BrokenTradeMessage
  by_cases hlen : msgLen < 19
  · exact ⟨st, by simp [hlen], by simp [hlen]⟩
  · obtain ⟨m, hm⟩ := read_nbytes_some msg 11 8 (by omega)
    cases htr : st.tradeMatchIDMap m with
    | none => exact ⟨st, by simp [hlen, hm, htr], by simp [hlen, hm, htr]⟩
    | some tr =>
      refine ⟨breakTrade st m tr, ?_, ?_⟩
      · simp [hlen, hm, htr]
      · simp [hlen, hm, breakTrade, Map.erase_self]

/-- C10: a Cross-Trade message (`Q`) whose 8-byte share count at offset 11 is 0 leaves the
state unchanged: no aggregate is created or modified, no trade record is stored in a
history or in the match-id index. -/
theorem C10_cross_zero_shares_noop (st : State) (msg : List Byte) (msgLen ts : Nat)
    (hbuf : msgLen ≤ msg.length) (hz : read_nbytes (msg.drop 11) 8 = some 0) :
    processITCH st msg msgLen tagQ ts = some st := by
  rw [processITCH_tagQ]
  unfold CrossTradeMessage
  by_cases hlen : msgLen < 39
  · simp [hlen]
  · obtain ⟨s, hs⟩ := readSymbol_some msg 19 (by omega)
    obtain ⟨p, hp⟩ := read_4bytes_some msg 27 (by omega)
    obtain ⟨m, hm⟩ := read_nbytes_some msg 31 8 (by omega)
    simp [hlen, hz, hs, hp, hm]

/-- C2, counterexample: Add ref 1 (`AAPL`, price 4294967295) and one Execute of 4294967295
shares leave `AAPL` with priceVolume 18446744065119617025; the same Execute once more,
the order still pending, does not add `n * od.price` to it: the 64-bit sum wraps to
18446744056529682434. -/
theorem C2_counterexample_wraparound :
    ∃ st1 st2 od,
      processAll State.empty [callOf msgAddMax, callOf msgExecMax] = some st1 ∧
      st1.activeOrders 1 = some od ∧ od.stock = symAAPL ∧ od.price = 4294967295 ∧
      read_nbytes (msgExecMax.drop 11) 8 = some 1 ∧
      read_4bytes (msgExecMax.drop 19) = some 4294967295 ∧
      processITCH st1 msgExecMax 31 tagE 0 = some st2 ∧
      (aggOf st1 symAAPL).priceVolume = 18446744065119617025 ∧
      (aggOf st2 symAAPL).priceVolume = 18446744056529682434 ∧
      (aggOf st2 symAAPL).priceVolume ≠
        (aggOf st1 symAAPL).priceVolume + 4294967295 * od.price :=
  ⟨_, _, _, rfl, rfl, rfl, rfl, by decide, by decide, rfl, by decide, by decide, by decide⟩

/-- C2 (amended): in a state where order reference `r` maps to a pending order `od`, an
`E` message of length at least 31 carrying reference `r`, share count `n`, match id `m`
and timestamp `ts` adds `n` to the volume and `n * od.price` to the priceVolume of
`od.stock` modulo 2^64 (exactly `n` and `n * od.price` when the 64-bit sums do not wrap),
leaves every other symbol's entry unchanged, appends the record
(`E`, `m`, `od.stock`, `od.price`, `n`, `ts`) at the end of the history of `od.stock`, and
maps `m` to that record in the match-id index. -/
theorem C2_executed_order_records_trade (st : State) (msg : List Byte)
    (msgLen ts r n m : Nat) (od : OrderData) (hlen : 31 ≤ msgLen)
    (hr : read_nbytes (msg.drop 11) 8 = some r) (hn : read_4bytes (msg.drop 19) = some n)
    (hm : read_nbytes (msg.drop 23) 8 = some m) (hod : st.activeOrders r = some od) :
    ∃ st', processITCH st msg msgLen tagE ts = some st' ∧
      st'.VWAPaggregator od.stock =
        some { volume := ((aggOf st od.stock).volume + n) % 2 ^ 64,
               priceVolume := ((aggOf st od.stock).priceVolume + n * od.price) % 2 ^ 64 } ∧
      ((aggOf st od.stock).volume + n < 2 ^ 64 →
        (aggOf st' od.stock).volume = (aggOf st od.stock).volume + n) ∧
      ((aggOf st od.stock).priceVolume + n * od.price < 2 ^ 64 →
        (aggOf st' od.stock).priceVolume = (aggOf st od.stock).priceVolume + n * od.price) ∧
      (∀ s, s ≠ od.stock → st'.VWAPaggregator s = st.VWAPaggregator s) ∧
      st'.executedTrades od.stock =
        some (histOf st od.stock ++
          [{ msgType := tagE, matchID := m, stock := od.stock, price := od.price,
             volume := n, timestamp := ts }]) ∧
      st'.tradeMatchIDMap m =
        some { msgType := tagE, matchID := m, stock := od.stock, price := od.price,
               volume := n, timestamp := ts } :=
  ⟨_, (processITCH_tagE st msg msgLen ts).trans
      (ExecutedOrderMessage_wf st msg msgLen ts r n m od hlen hr hn hm hod),
    recordTrade_effect st n od.price
      { msgType := tagE, matchID := m, stock := od.stock, price := od.price,
        volume := n, timestamp := ts }⟩

/-- Witness of C2, the scenario of the claim: Add (`A`, ref 1, `AAPL`, price 1000000,
100 shares) then `E` (ref 1, 50 shares, match id 7) from the empty state gives `AAPL`
the aggregate (volume 50, priceVolume 50000000), where the priceVolume is exactly 100
times the volume times 10000. -/
theorem C2_executed_order_records_trade_witness :
    processITCH State.empty msgAddAAPL 36 tagA 0 = some stAfterAdd ∧
      ∃ st', processITCH stAfterAdd msgExec1 31 tagE 0 = some st' ∧
        st'.VWAPaggregator symAAPL = some { volume := 50, priceVolume := 50000000 } ∧
        (aggOf st' symAAPL).priceVolume = 100 * ((aggOf st' symAAPL).volume * 10000) ∧
        st'.executedTrades symAAPL =
          some [{ msgType := tagE, matchID := 7, stock := symAAPL, price := 1000000,
                  volume := 50, timestamp := 0 }] := by
  refine ⟨rfl, ?_⟩
  obtain ⟨st', h1, h2, _, _, _, h6, _⟩ :=
    C2_executed_order_records_trade stAfterAdd msgExec1 31 0 1 50 7 orderAAPL
      (by decide) (by decide) (by decide) (by decide) (by decide)
  have h2' : st'.VWAPaggregator symAAPL = some { volume := 50, priceVolume := 50000000 } :=
    h2.trans (by decide)
  exact ⟨st', h1, h2', by simp [aggOf, h2'], h6.trans (by decide)⟩

/-- C3, counterexample: a `P` message of 4294967295 shares of `MSFT` at price 4294967295
processed twice from the empty state: the first leaves priceVolume 18446744065119617025,
the second does not add `n * p` to it: the 64-bit sum wraps to 18446744056529682434. -/
theorem C3_counterexample_wraparound :
    ∃ st1 st2,
      processITCH State.empty msgTradeMax 44 tagP 0 = some st1 ∧
      processITCH st1 msgTradeMax 44 tagP 0 = some st2 ∧
      read_4bytes (msgTradeMax.drop 20) = some 4294967295 ∧
      readSymbol (msgTradeMax.drop 24) = some symMSFT ∧
      read_4bytes (msgTradeMax.drop 32) = some 4294967295 ∧
      (aggOf st1 symMSFT).priceVolume = 18446744065119617025 ∧
      (aggOf st2 symMSFT).priceVolume = 18446744056529682434 ∧
      (aggOf st2 symMSFT).priceVolume ≠
        (aggOf st1 symMSFT).priceVolume + 4294967295 * 4294967295 :=
  ⟨_, _, rfl, rfl, by decide, by decide, by decide, by decide, by decide, by decide⟩

/-- C3 (amended): in every state, whatever the order book holds, a `P` message of length
at least 44 records its trade from the fields of the message alone: with `n` the 4-byte
share count at offset 20, `s` the trimmed 8-byte symbol at offset 24, `p` the 4-byte price
at offset 32 and `m` the 8-byte match number at offset 36, the entry of `s` gains `n` in
volume and `n * p` in priceVolume modulo 2^64 (exactly `n` and `n * p` when the 64-bit sums
do not wrap), other entries are unchanged, the record (`P`, `m`, `s`, `p`, `n`, timestamp)
is appended to the history of `s`, and the index maps `m` to it. -/
theorem C3_trade_message_records_trade (st : State) (msg : List Byte)
    (msgLen ts n p m : Nat) (s : Symbol) (hbuf : msgLen ≤ msg.length) (hlen : 44 ≤ msgLen)
    (hn : read_4bytes (msg.drop 20) = some n) (hs : readSymbol (msg.drop 24) = some s)
    (hp : read_4bytes (msg.drop 32) = some p) (hm : read_nbytes (msg.drop 36) 8 = some m) :
    ∃ st', processITCH st msg msgLen tagP ts = some st' ∧
      st'.VWAPaggregator s =
        some { volume := ((aggOf st s).volume + n) % 2 ^ 64,
               priceVolume := ((aggOf st s).priceVolume + n * p) % 2 ^ 64 } ∧
      ((aggOf st s).volume + n < 2 ^ 64 →
        (aggOf st' s).volume = (aggOf st s).volume + n) ∧
      ((aggOf st s).priceVolume + n * p < 2 ^ 64 →
        (aggOf st' s).priceVolume = (aggOf st s).priceVolume + n * p) ∧
      (∀ s', s' ≠ s → st'.VWAPaggregator s' = st.VWAPaggregator s') ∧
      st'.executedTrades s =
        some (histOf st s ++
          [{ msgType := tagP, matchID := m, stock := s, price := p, volume := n,
             timestamp := ts }]) ∧
      st'.tradeMatchIDMap m =
        some { msgType := tagP, matchID := m, stock := s, price := p, volume := n,
               timestamp := ts } :=
  ⟨_, (processITCH_tagP st msg msgLen ts).trans
      (TradeMessage_wf st msg msgLen ts n p m s hbuf hlen hn hs hp hm),
    recordTrade_effect st n p
      { msgType := tagP, matchID := m, stock := s, price := p, volume := n, timestamp := ts }⟩

/-- Witness of C3, the scenario of the claim: two `P` messages for `MSFT` with
(10 shares, price 2000000) and (30 shares, price 3000000) from the empty state give
`MSFT` the aggregate (volume 40, priceVolume 110000000), where the priceVolume is
exactly 275 times the volume times 10000. -/
theorem C3_trade_message_records_trade_witness :
    processITCH State.empty msgTradeMSFT1 44 tagP 0 = some stAfterTrade ∧
      ∃ st', processITCH stAfterTrade msgTradeMSFT2 44 tagP 0 = some st' ∧
        st'.VWAPaggregator symMSFT = some { volume := 40, priceVolume := 110000000 } ∧
        (aggOf st' symMSFT).priceVolume = 275 * ((aggOf st' symMSFT).volume * 10000) ∧
        st'.executedTrades symMSFT =
          some [recordMSFT1,
                { msgType := tagP, matchID := 2, stock := symMSFT, price := 3000000,
                  volume := 30, timestamp := 0 }] := by
  refine ⟨rfl, ?_⟩
  obtain ⟨st', h1, h2, _, _, _, h6, _⟩ :=
    C3_trade_message_records_trade stAfterTrade msgTradeMSFT2 44 0 30 3000000 2 symMSFT
      (by decide) (by decide) (by decide) (by decide) (by decide) (by decide)
  have h2' : st'.VWAPaggregator symMSFT = some { volume := 40, priceVolume := 110000000 } :=
    h2.trans (by decide)
  exact ⟨st', h1, h2', by simp [aggOf, h2'], h6.trans (by decide)⟩

/-- C4, counterexample: Add ref 1 (`AAPL`) and one `C` message of 4294967295 shares at
execution price 4294967295 leave `AAPL` with priceVolume 18446744065119617025; the same
`C` message once more does not add `n * q` to it: the 64-bit sum wraps to
18446744056529682434. -/
theorem C4_counterexample_wraparound :
    ∃ st1 st2 od,
      processAll State.empty [callOf msgAddAAPL, callOf msgExecPriceMax] = some st1 ∧
      st1.activeOrders 1 = some od ∧ od.stock = symAAPL ∧
      read_nbytes (msgExecPriceMax.drop 11) 8 = some 1 ∧
      read_4bytes (msgExecPriceMax.drop 19) = some 4294967295 ∧
      read_4bytes (msgExecPriceMax.drop 32) = some 4294967295 ∧
      processITCH st1 msgExecPriceMax 36 tagC 0 = some st2 ∧
      (aggOf st1 symAAPL).priceVolume = 18446744065119617025 ∧
      (aggOf st2 symAAPL).priceVolume = 18446744056529682434 ∧
      (aggOf st2 symAAPL).priceVolume ≠
        (aggOf st1 symAAPL).priceVolume + 4294967295 * 4294967295 :=
  ⟨_, _, _, rfl, rfl, rfl, by decide, by decide, by decide, rfl, by decide, by decide,
    by decide⟩

/-- C4 (amended): in a state where order reference `r` maps to a pending order `od`, a
`C` message of length at least 36 carrying reference `r`, share count `n`, match id `m`
and execution price `q` (4 bytes at offset 32) records the trade for `od.stock` at the
price `q` of the message, not at `od.price`: the entry of `od.stock` gains `n` in volume
and `n * q` in priceVolume modulo 2^64 (exactly `n` and `n * q` when the 64-bit sums do
not wrap), other entries are unchanged, and the record
(`C`, `m`, `od.stock`, `q`, `n`, timestamp) is appended to the history of `od.stock` and
stored in the index under `m`. -/
theorem C4_executed_price_records_trade (st : State) (msg : List Byte)
    (msgLen ts r n m q : Nat) (od : OrderData) (hlen : 36 ≤ msgLen)
    (hr : read_nbytes (msg.drop 11) 8 = some r) (hn : read_4bytes (msg.drop 19) = some n)
    (hm : read_nbytes (msg.drop 23) 8 = some m) (hq : read_4bytes (msg.drop 32) = some q)
    (hod : st.activeOrders r = some od) :
    ∃ st', processITCH st msg msgLen tagC ts = some st' ∧
      st'.VWAPaggregator od.stock =
        some { volume := ((aggOf st od.stock).volume + n) % 2 ^ 64,
               priceVolume := ((aggOf st od.stock).priceVolume + n * q) % 2 ^ 64 } ∧
      ((aggOf st od.stock).volume + n < 2 ^ 64 →
        (aggOf st' od.stock).volume = (aggOf st od.stock).volume + n) ∧
      ((aggOf st od.stock).priceVolume + n * q < 2 ^ 64 →
        (aggOf st' od.stock).priceVolume = (aggOf st od.stock).priceVolume + n * q) ∧
      (∀ s, s ≠ od.stock → st'.VWAPaggregator s = st.VWAPaggregator s) ∧
      st'.executedTrades od.stock =
        some (histOf st od.stock ++
          [{ msgType := tagC, matchID := m, stock := od.stock, price := q,
             volume := n, timestamp := ts }]) ∧
      st'.tradeMatchIDMap m =
        some { msgType := tagC, matchID := m, stock := od.stock, price := q,
               volume := n, timestamp := ts } :=
  ⟨_, (processITCH_tagC st msg msgLen ts).trans
      (ExecutedPriceOrderMessage_wf st msg msgLen ts r n m q od hlen hr hn hm hq hod),
    recordTrade_effect st n q
      { msgType := tagC, matchID := m, stock := od.stock, price := q,
        volume := n, timestamp := ts }⟩

/-- Witness of C4: with ref 1 pending for `AAPL` at price 1000000, a `C` message for
ref 1 of 50 shares at execution price 2000000 gives `AAPL` priceVolume 100000000. -/
theorem C4_executed_price_records_trade_witness :
    stAfterAdd.activeOrders 1 = some orderAAPL ∧
      ∃ st', processITCH stAfterAdd msgExecPrice1 36 tagC 0 = some st' ∧
        st'.VWAPaggregator symAAPL = some { volume := 50, priceVolume := 100000000 } ∧
        st'.tradeMatchIDMap 8 =
          some { msgType := tagC, matchID := 8, stock := symAAPL, price := 2000000,
                 volume := 50, timestamp := 0 } := by
  refine ⟨by decide, ?_⟩
  obtain ⟨st', h1, h2, _, _, _, _, h7⟩ :=
    C4_executed_price_records_trade stAfterAdd msgExecPrice1 36 0 1 50 8 2000000 orderAAPL
      (by decide) (by decide) (by decide) (by decide) (by decide) (by decide)
  exact ⟨st', h1, h2.trans (by decide), h7⟩

/-- C7, counterexample: from the state a `P` trade of 4294967295 `AAPL` shares at price
4294967295 leaves (priceVolume 18446744065119617025), Add ref 1 (`AAPL`), Replace 1 by 2
at price 4294967295 and Execute ref 2 of 4294967295 shares: the order book part holds,
but the priceVolume of `AAPL` does not gain `n * p`: the 64-bit sum wraps to
18446744056529682434. -/
theorem C7_counterexample_wraparound :
    ∃ st0 st2 st3,
      processITCH State.empty msgTradeMaxAAPL 44 tagP 0 = some st0 ∧
      processAll st0 [callOf msgAddAAPL, callOf msgReplaceMax] = some st2 ∧
      st2.activeOrders 2 =
        some { stock := symAAPL, price := 4294967295, side := 66, shares := 100 } ∧
      read_4bytes (msgExecMax2.drop 19) = some 4294967295 ∧
      processITCH st2 msgExecMax2 31 tagE 0 = some st3 ∧
      (aggOf st2 symAAPL).priceVolume = 18446744065119617025 ∧
      (aggOf st3 symAAPL).priceVolume = 18446744056529682434 ∧
      (aggOf st3 symAAPL).priceVolume ≠
        (aggOf st2 symAAPL).priceVolume + 4294967295 * 4294967295 :=
  ⟨_, _, _, rfl, rfl, by decide, by decide, rfl, by decide, by decide, by decide⟩

/-- C7 (amended): for all order references `X`, `Y` and every price `p`, after a well-formed
Add with reference `X`, symbol `s`, side `d` and share count `k` followed by a well-formed
Replace with old reference `X`, new reference `Y` and price `p`, the order book maps `Y` to
the order (`s`, `d`, `k`, `p`), and an `E` message of length at least 31 with reference `Y`,
share count `n` and match id `m` records a trade for `s` at price `p`: the entry of `s`
gains `n` in volume and `n * p` in priceVolume modulo 2^64 (exactly `n` and `n * p` when
the 64-bit sums do not wrap), and the record (`E`, `m`, `s`, `p`, `n`, timestamp) is
appended to the history of `s`. -/
theorem C7_execute_new_ref_after_replace (st : State) (a u e : Call)
    (x y p k n m : Nat) (s : Symbol) (d : Byte)
    (ha : a.msgType = tagA ∧ 36 ≤ a.msgLen ∨ a.msgType = tagF ∧ 40 ≤ a.msgLen)
    (hab : a.inBounds) (hax : read_nbytes (a.msg.drop 11) 8 = some x)
    (had : a.msg[19]? = some d) (hak : read_4bytes (a.msg.drop 20) = some k)
    (has : readSymbol (a.msg.drop 24) = some s)
    (hu : u.msgType = tagU ∧ 35 ≤ u.msgLen)
    (hux : read_nbytes (u.msg.drop 11) 8 = some x)
    (huy : read_nbytes (u.msg.drop 19) 8 = some y)
    (hup : read_4bytes (u.msg.drop 31) = some p)
    (he : e.msgType = tagE ∧ 31 ≤ e.msgLen)
    (hey : read_nbytes (e.msg.drop 11) 8 = some y)
    (hen : read_4bytes (e.msg.drop 19) = some n)
    (hem : read_nbytes (e.msg.drop 23) 8 = some m) :
    ∃ st2 st3, processAll st [a, u] = some st2 ∧
      st2.activeOrders y = some { stock := s, price := p, side := d, shares := k } ∧
      processITCH st2 e.msg e.msgLen e.msgType e.timestamp = some st3 ∧
      st3.VWAPaggregator s =
        some { volume := ((aggOf st s).volume + n) % 2 ^ 64,
               priceVolume := ((aggOf st s).priceVolume + n * p) % 2 ^ 64 } ∧
      ((aggOf st s).volume + n < 2 ^ 64 →
        (aggOf st3 s).volume = (aggOf st s).volume + n) ∧
      ((aggOf st s).priceVolume + n * p < 2 ^ 64 →
        (aggOf st3 s).priceVolume = (aggOf st s).priceVolume + n * p) ∧
      st3.executedTrades s =
        some (histOf st s ++
          [{ msgType := tagE, matchID := m, stock := s, price := p, volume := n,
             timestamp := e.timestamp }]) := by
  obtain ⟨d', k', s', q, hd', hk', hs', _, hadd⟩ :=
    AddOrderMessage_wf st a.msg a.msgLen a.msgType x hab ha hax
  obtain rfl : d = d' := Option.some.inj (had.symm.trans hd')
  obtain rfl : k = k' := Option.some.inj (hak.symm.trans hk')
  obtain rfl : s = s' := Option.some.inj (has.symm.trans hs')
  have hA : processITCH st a.msg a.msgLen a.msgType a.timestamp = _ :=
    (processITCH_add st a.msg a.msgLen a.msgType a.timestamp
      (by rcases ha with h | h; exact Or.inl h.1; exact Or.inr h.1)).trans hadd
  have hbook : (((st.activeOrders.insert x
      { stock := s, price := q, side := d, shares := k }).erase x).insert y
        { stock := s, price := p, side := d, shares := k }) y =
      some { stock := s, price := p, side := d, shares := k } := Map.insert_self _ _ _
  have hU : processAll st [a, u] = some { st with
      activeOrders := ((st.activeOrders.insert x
        { stock := s, price := q, side := d, shares := k }).erase x).insert y
          { stock := s, price := p, side := d, shares := k } } := by
    simp only [processAll, hA, Option.some_bind, hu.1, processITCH_tagU]
    rw [ReplaceOrderMessage_wf _ u.msg u.msgLen x y p _ hu.2 hux huy hup (Map.insert_self _ _ _)]
    rfl
  have hE := ExecutedOrderMessage_wf
    { st with
      activeOrders := ((st.activeOrders.insert x
        { stock := s, price := q, side := d, shares := k }).erase x).insert y
          { stock := s, price := p, side := d, shares := k } }
    e.msg e.msgLen e.timestamp y n m _ he.2 hey hen hem hbook
  obtain ⟨h1, h2, h3, _, h5, _⟩ := recordTrade_effect
    { st with
      activeOrders := ((st.activeOrders.insert x
        { stock := s, price := q, side := d, shares := k }).erase x).insert y
          { stock := s, price := p, side := d, shares := k } } n p
    { msgType := tagE, matchID := m, stock := s, price := p, volume := n,
      timestamp := e.timestamp }
  refine ⟨_, _, hU, hbook, ?_, h1, h2, h3, h5⟩
  rw [he.1, processITCH_tagE]
  exact hE

/-- Witness of C7: Add ref 1 (`AAPL`, side `B`, 100 shares), Replace 1 by 2 at price
3000000, Execute ref 2 of 50 shares, from the empty state: `AAPL` gets the aggregate
(volume 50, priceVolume 150000000). -/
theorem C7_execute_new_ref_after_replace_witness :
    ∃ st2 st3, processAll State.empty [callOf msgAddAAPL, callOf msgReplace12] = some st2 ∧
      st2.activeOrders 2 =
        some { stock := symAAPL, price := 3000000, side := 66, shares := 100 } ∧
      processITCH st2 msgExec2 31 tagE 0 = some st3 ∧
      st3.VWAPaggregator symAAPL = some { volume := 50, priceVolume := 150000000 } := by
  obtain ⟨st2, st3, h1, h2, h3, h4, _⟩ :=
    C7_execute_new_ref_after_replace State.empty (callOf msgAddAAPL) (callOf msgReplace12)
      (callOf msgExec2) 1 2 3000000 100 50 7 symAAPL 66 (Or.inl (by decide)) (by decide)
      (by decide) (by decide) (by decide) (by decide) (by decide) (by decide) (by decide)
      (by decide) (by decide) (by decide) (by decide) (by decide)
  exact ⟨st2, st3, h1, h2, h3, h4.trans (by decide)⟩

/-- C8: in a state reachable from the empty state, a Broken-Trade message (`B` of length
at least 19) whose match id `m` is in the match-id index removes exactly one history
entry: with `r` the record the index holds for `m`, the history of `r.stock` is
`pre ++ x :: post` where `x` is its first entry with match id `m` and the message kind of
`r`, and becomes `pre ++ post`; the histories of all other symbols are unchanged, the index
entry for `m` is removed and the other index entries are kept. -/
theorem C8_broken_trade_removes_one_entry (st : State) (msg : List Byte)
    (msgLen ts m : Nat) (r : TradeRecord) (hreach : Reachable st) (hlen : 19 ≤ msgLen)
    (hm : read_nbytes (msg.drop 11) 8 = some m) (hidx : st.tradeMatchIDMap m = some r) :
    ∃ st' pre x post,
      processITCH st msg msgLen tagB ts = some st' ∧
      st.executedTrades r.stock = some (pre ++ x :: post) ∧
      x.matchID = m ∧ x.msgType = r.msgType ∧
      (∀ e ∈ pre, ¬ (e.matchID = m ∧ e.msgType = r.msgType)) ∧
      st'.executedTrades r.stock = some (pre ++ post) ∧
      (∀ s, s ≠ r.stock → st'.executedTrades s = st.executedTrades s) ∧
      st'.tradeMatchIDMap m = none ∧
      (∀ k, k ≠ m → st'.tradeMatchIDMap k = st.tradeMatchIDMap k) := by
  obtain ⟨hid, hist, hh, hmem⟩ := IndexInHistory_of_reachable st hreach m r hidx
  have hp : (fun vt : TradeRecord =>
      decide (vt.matchID = m ∧ vt.msgType = r.msgType)) r = true := by
    simp [hid]
  obtain ⟨x, pre, post, hpre, hx, hsplit, herase⟩ :=
    @List.exists_of_eraseP _ (fun vt : TradeRecord =>
      decide (vt.matchID = m ∧ vt.msgType = r.msgType)) hist r hmem hp
  have hhist : histOf st r.stock = hist := by simp [histOf, hh]
  have hstep : processITCH st msg msgLen tagB ts = some (breakTrade st m r) := by
    have hlen' : ¬ msgLen < 19 := by omega
    simp [processITCH_tagB, BrokenTradeMessage, hlen', hm, hidx]
  simp only [decide_eq_true_eq] at hx hpre
  refine ⟨breakTrade st m r, pre, x, post, hstep, by rw [hh, hsplit], hx.1, hx.2, hpre,
    ?_, ?_, ?_, ?_⟩
  · show Map.insert st.executedTrades r.stock
      ((histOf st r.stock).eraseP _) r.stock = _
    rw [Map.insert_self, hhist, herase]
  · intro s hs; simp [breakTrade, Map.insert, hs]
  · simp [breakTrade, Map.erase]
  · intro k hk; simp [breakTrade, Map.erase, hk]

/-- Witness of C8: after the `P` trade of `MSFT` with match number 1, the `B` message for
match number 1 empties the history of `MSFT` and the index entry. -/
theorem C8_broken_trade_removes_one_entry_witness :
    Reachable stAfterTrade ∧ stAfterTrade.tradeMatchIDMap 1 = some recordMSFT1 ∧
      ∃ st' pre x post,
        processITCH stAfterTrade msgBroken1 19 tagB 0 = some st' ∧
        stAfterTrade.executedTrades symMSFT = some (pre ++ x :: post) ∧
        st'.executedTrades symMSFT = some (pre ++ post) ∧
        st'.tradeMatchIDMap 1 = none := by
  have hreach : Reachable stAfterTrade := ⟨[callOf msgTradeMSFT1], rfl⟩
  refine ⟨hreach, by decide, ?_⟩
  obtain ⟨st', pre, x, post, h1, h2, _, _, _, h6, _, h8, _⟩ :=
    C8_broken_trade_removes_one_entry stAfterTrade msgBroken1 19 0 1 recordMSFT1 hreach
      (by decide) (by decide) (by decide)
  exact ⟨st', pre, x, post, h1, h2, h6, h8⟩

/-- Witness of C9: the `B` message for match number 1, twice, after the `P` trade of
`MSFT` with match number 1. -/
theorem C9_broken_trade_idempotent_witness :
    ∃ st1, processITCH stAfterTrade msgBroken1 19 tagB 0 = some st1 ∧
      processITCH st1 msgBroken1 19 tagB 0 = some st1 :=
  C9_broken_trade_idempotent stAfterTrade msgBroken1 19 0 0 (by decide)

/-- Witness of C10: a `Q` message of 40 bytes with share count 0 after the `P` trade of
`MSFT` leaves that state as it is. -/
theorem C10_cross_zero_shares_noop_witness :
    read_nbytes (msgCrossZero.drop 11) 8 = some 0 ∧
      processITCH stAfterTrade msgCrossZero 40 tagQ 0 = some stAfterTrade :=
  ⟨by decide, C10_cross_zero_shares_noop stAfterTrade msgCrossZero 40 0 (by decide) (by decide)⟩

/-- C11: a message whose type tag is one of `A`, `F`, `D`, `U`, `P`, `E`, `C`, `Q`, `B` and
whose length is below the minimum of that tag (36, 40, 19, 35, 44, 31, 36, 39, 19) leaves
the whole state (order book, histories, match-id index, accumulator) unchanged. -/
theorem C11_short_message_dropped (st : State) (msg : List Byte) (msgLen ts : Nat)
    (msgType : Byte)
    (h : msgType = tagA ∧ msgLen < 36 ∨ msgType = tagF ∧ msgLen < 40 ∨
      msgType = tagD ∧ msgLen < 19 ∨ msgType = tagU ∧ msgLen < 35 ∨
      msgType = tagP ∧ msgLen < 44 ∨ msgType = tagE ∧ msgLen < 31 ∨
      msgType = tagC ∧ msgLen < 36 ∨ msgType = tagQ ∧ msgLen < 39 ∨
      msgType = tagB ∧ msgLen < 19) :
    processITCH st msg msgLen msgType ts = some st := by
  rcases h with ⟨rfl, h⟩ | ⟨rfl, h⟩ | ⟨rfl, h⟩ | ⟨rfl, h⟩ | ⟨rfl, h⟩ | ⟨rfl, h⟩ | ⟨rfl, h⟩ |
    ⟨rfl, h⟩ | ⟨rfl, h⟩
  · rw [processITCH_tagA]; simp [AddOrderMessage, h]
  · have hFA : tagF ≠ tagA := by decide
    rw [processITCH_tagF]; simp [AddOrderMessage, hFA, h]
  · rw [processITCH_tagD]; simp [DeleteOrderMessage, h]
  · rw [processITCH_tagU]; simp [ReplaceOrderMessage, h]
  · rw [processITCH_tagP]; simp [TradeMessage, h]
  · rw [processITCH_tagE]; simp [ExecutedOrderMessage, h]
  · rw [processITCH_tagC]; simp [ExecutedPriceOrderMessage, h]
  · rw [processITCH_tagQ]; simp [CrossTradeMessage, h]
  · rw [processITCH_tagB]; simp [BrokenTradeMessage, h]

/-- Witness of C11: the Add Order message cut after 20 bytes, in the state after a trade. -/
theorem C11_short_message_dropped_witness :
    processITCH stAfterTrade msgAddShort 20 tagA 0 = some stAfterTrade :=
  C11_short_message_dropped stAfterTrade msgAddShort 20 0 tagA (Or.inl (by decide))

/-- C12: a message that references an unknown key changes nothing: an `E` or `C` message
whose order reference is not in the order book, a `U` message whose old order reference is
not in the order book (no entry is created at the new reference), a `D` message whose
order reference is not in the order book, and a `B` message whose match id is not in the
match-id index each leave the whole state unchanged. The key is the 8-byte field at
offset 11 in all five layouts. -/
theorem C12_unknown_key_noop (st : State) (msg : List Byte) (msgLen ts key : Nat)
    (msgType : Byte) (hbuf : msgLen ≤ msg.length)
    (hkey : read_nbytes (msg.drop 11) 8 = some key)
    (h : (msgType = tagE ∨ msgType = tagC ∨ msgType = tagU ∨ msgType = tagD) ∧
        st.activeOrders key = none ∨
      msgType = tagB ∧ st.tradeMatchIDMap key = none) :
    processITCH st msg msgLen msgType ts = some st := by
  rcases h with ⟨rfl | rfl | rfl | rfl, hno⟩ | ⟨rfl, hno⟩
  · rw [processITCH_tagE]; exact ExecutedOrderMessage_absent st msg msgLen ts key hbuf hkey hno
  · rw [processITCH_tagC]
    exact ExecutedPriceOrderMessage_absent st msg msgLen ts key hbuf hkey hno
  · rw [processITCH_tagU]; exact ReplaceOrderMessage_absent st msg msgLen key hbuf hkey hno
  · rw [processITCH_tagD]; exact DeleteOrderMessage_absent st msg msgLen key hkey hno
  · rw [processITCH_tagB]; exact BrokenTradeMessage_absent st msg msgLen key hkey hno

/-- Witness of C12: a Replace of ref 1 by ref 2 in a state whose order book is empty. -/
theorem C12_unknown_key_noop_witness :
    stAfterTrade.activeOrders 1 = none ∧
      processITCH stAfterTrade msgReplace12 35 tagU 0 = some stAfterTrade :=
  ⟨by decide, C12_unknown_key_noop stAfterTrade msgReplace12 35 0 1 tagU (by decide)
    (by decide) (Or.inl ⟨Or.inr (Or.inr (Or.inl rfl)), by decide⟩)⟩

/-- C15: a Broken-Trade message never changes the VWAP accumulator: for every state and
every `B` message, whether or not its match id is known, the accumulator after the message
is the accumulator before it (every aggregate kept as it is, none created, none removed). -/
theorem C15_broken_trade_keeps_accumulator (st : State) (msg : List Byte) (msgLen ts : Nat)
    (hbuf : msgLen ≤ msg.length) :
    ∃ st', processITCH st msg msgLen tagB ts = some st' ∧
      st'.VWAPaggregator = st.VWAPaggregator := by
  obtain ⟨st', h⟩ := BrokenTradeMessage_total st msg msgLen hbuf
  refine ⟨st', (processITCH_tagB st msg msgLen ts).trans h, ?_⟩
  rcases BrokenTradeMessage_shape st st' msg msgLen h with rfl | ⟨m, tr, _, rfl⟩ <;> rfl

/-- Witness of C15: the `B` message for match number 1 after the `P` trade with match
number 1: the history of `MSFT` is emptied, the aggregate (10, 20000000) stays. -/
theorem C15_broken_trade_keeps_accumulator_witness :
    ∃ st', processITCH stAfterTrade msgBroken1 19 tagB 0 = some st' ∧
      st'.VWAPaggregator symMSFT = some { volume := 10, priceVolume := 20000000 } := by
  obtain ⟨st', h1, h2⟩ :=
    C15_broken_trade_keeps_accumulator stAfterTrade msgBroken1 19 0 (by decide)
  exact ⟨st', h1, by rw [h2]; decide⟩

/-- C18: the minimum-length checks make every buffer read in bounds: for a payload of
exactly `msgLen` bytes and a type tag among `A`, `F`, `D`, `U`, `P`, `E`, `C`, `Q`, `B`
with `msgLen` at least the minimum of that tag, no read of the handler falls outside the
buffer, that is, `processITCH` returns a state; and the 6-byte timestamp read at offset 5
is in bounds whenever `msgLen` is at least 11. -/
theorem C18_reads_in_bounds (st : State) (msg : List Byte) (msgLen ts : Nat)
    (msgType : Byte) (hlen : msg.length = msgLen) :
    ((msgType = tagA ∧ 36 ≤ msgLen ∨ msgType = tagF ∧ 40 ≤ msgLen ∨
        msgType = tagD ∧ 19 ≤ msgLen ∨ msgType = tagU ∧ 35 ≤ msgLen ∨
        msgType = tagP ∧ 44 ≤ msgLen ∨ msgType = tagE ∧ 31 ≤ msgLen ∨
        msgType = tagC ∧ 36 ≤ msgLen ∨ msgType = tagQ ∧ 39 ≤ msgLen ∨
        msgType = tagB ∧ 19 ≤ msgLen) →
      ∃ st', processITCH st msg msgLen msgType ts = some st') ∧
    (11 ≤ msgLen → ∃ t, read_nbytes (msg.drop 5) 6 = some t ∧ timestampOf msg = some t) := by
  constructor
  · intro _
    exact processITCH_total st msg msgLen msgType ts (by omega)
  · intro h11
    obtain ⟨t, ht⟩ := read_nbytes_some msg 5 6 (by omega)
    have h11' : msg.length ≥ 11 := by omega
    exact ⟨t, ht, by simp [timestampOf, h11', ht]⟩

/-- Witness of C18: the 44-byte `P` message of hour 9. -/
theorem C18_reads_in_bounds_witness :
    (∃ st', processITCH State.empty msgTradeAt9 44 tagP 0 = some st') ∧
      ∃ t, read_nbytes (msgTradeAt9.drop 5) 6 = some t ∧ timestampOf msgTradeAt9 = some t :=
  ⟨(C18_reads_in_bounds State.empty msgTradeAt9 44 0 tagP (by decide)).1
      (Or.inr (Or.inr (Or.inr (Or.inr (Or.inl ⟨rfl, by decide⟩))))),
    (C18_reads_in_bounds State.empty msgTradeAt9 44 0 tagP (by decide)).2 (by decide)⟩

/-- C20: order-book state and trade state are modified by disjoint message kinds: a
trade-side message (`P`, `E`, `C`, `Q` or `B`) leaves the order book exactly unchanged (an
execution neither removes the executed order nor reduces its share count), and an
order-side message (`A`, `F`, `D` or `U`) leaves the per-symbol histories, the match-id
index and the accumulator exactly unchanged. -/
theorem C20_order_and_trade_state_disjoint (st : State) (msg : List Byte) (msgLen ts : Nat)
    (msgType : Byte) (hbuf : msgLen ≤ msg.length) :
    ∃ st', processITCH st msg msgLen msgType ts = some st' ∧
      ((msgType = tagP ∨ msgType = tagE ∨ msgType = tagC ∨ msgType = tagQ ∨ msgType = tagB) →
        st'.activeOrders = st.activeOrders) ∧
      ((msgType = tagA ∨ msgType = tagF ∨ msgType = tagD ∨ msgType = tagU) →
        st'.executedTrades = st.executedTrades ∧ st'.tradeMatchIDMap = st.tradeMatchIDMap ∧
          st'.VWAPaggregator = st.VWAPaggregator) := by
  obtain ⟨st', h⟩ := processITCH_total st msg msgLen msgType ts hbuf
  refine ⟨st', h, ?_, ?_⟩
  · rintro (rfl | rfl | rfl | rfl | rfl)
    · rw [processITCH_tagP] at h
      rcases TradeMessage_shape _ _ _ _ _ h with rfl | ⟨v, pv, tr, rfl⟩ <;> rfl
    · rw [processITCH_tagE] at h
      rcases ExecutedOrderMessage_shape _ _ _ _ _ h with rfl | ⟨v, pv, tr, rfl⟩ <;> rfl
    · rw [processITCH_tagC] at h
      rcases ExecutedPriceOrderMessage_shape _ _ _ _ _ h with rfl | ⟨v, pv, tr, rfl⟩ <;> rfl
    · rw [processITCH_tagQ] at h
      rcases CrossTradeMessage_shape _ _ _ _ _ h with rfl | ⟨v, pv, tr, rfl⟩ <;> rfl
    · rw [processITCH_tagB] at h
      rcases BrokenTradeMessage_shape _ _ _ _ h with rfl | ⟨m, tr, _, rfl⟩ <;> rfl
  · rintro (rfl | rfl | rfl | rfl)
    · rw [processITCH_tagA] at h
      obtain ⟨ao, rfl⟩ := AddOrderMessage_shape _ _ _ _ _ h
      exact ⟨rfl, rfl, rfl⟩
    · rw [processITCH_tagF] at h
      obtain ⟨ao, rfl⟩ := AddOrderMessage_shape _ _ _ _ _ h
      exact ⟨rfl, rfl, rfl⟩
    · rw [processITCH_tagD] at h
      obtain ⟨ao, rfl⟩ := DeleteOrderMessage_shape _ _ _ _ h
      exact ⟨rfl, rfl, rfl⟩
    · rw [processITCH_tagU] at h
      obtain ⟨ao, rfl⟩ := ReplaceOrderMessage_shape _ _ _ _ h
      exact ⟨rfl, rfl, rfl⟩

/-- Witness of C20: the Execute of ref 1 in the state where ref 1 is pending leaves the
order of ref 1, with its 100 shares, in the book. -/
theorem C20_order_and_trade_state_disjoint_witness :
    ∃ st', processITCH stAfterAdd msgExec1 31 tagE 0 = some st' ∧
      st'.activeOrders 1 = some orderAAPL := by
  obtain ⟨st', h1, h2, _⟩ :=
    C20_order_and_trade_state_disjoint stAfterAdd msgExec1 31 0 tagE (by decide)
  exact ⟨st', h1, by rw [h2 (Or.inr (Or.inl rfl))]; decide⟩

/-- C13: the byte reader decodes unsigned big-endian integers: on the `n` bytes
`b_0 .. b_(n-1)` at `p`, `n` at most 8, `read_nbytes` returns the sum of
`b_i * 256^(n-1-i)`, each byte taken as its value 0..255; `read_2bytes` and `read_4bytes`
return what `read_nbytes` returns with `n = 2` and `n = 4` on the same bytes. -/
theorem C13_big_endian_reader (p : List Byte) (n : Nat) (hn : n ≤ 8) (hp : n ≤ p.length) :
    read_nbytes p n = some (bigEndian (p.take n)) ∧
      read_2bytes p = read_nbytes p 2 ∧ read_4bytes p = read_nbytes p 4 := by
  refine ⟨?_, read_2bytes_eq_read_nbytes p, read_4bytes_eq_read_nbytes p⟩
  have h := read_nbytes_loop_value n p 0 0 (by omega) (by norm_num) hp
  rw [read_nbytes, h, Nat.zero_mul, Nat.zero_add]

/-- Witness of C13: the bytes 0x80, 0xFF, 0x01, 0x02 read as 3, 2 and 4 bytes. -/
theorem C13_big_endian_reader_witness :
    read_nbytes [128, 255, 1, 2] 3 = some 8453889 ∧ read_2bytes [128, 255, 1, 2] = some 33023 ∧
      read_4bytes [128, 255, 1, 2] = some 2164195586 := by
  obtain ⟨h1, h2, h3⟩ := C13_big_endian_reader [128, 255, 1, 2] 3 (by decide) (by decide)
  exact ⟨h1.trans (by decide), h2.trans (by decide), h3.trans (by decide)⟩

/-- C17: symbol keys are trimmed. The Add, Trade and Cross-Trade handlers turn the 8-byte
symbol field (at offset 24, 24 and 19) into their key with `readSymbol`; on every field of
8 bytes the key has at most 8 characters and neither starts nor ends with a whitespace
character; and when the field is an identifier `w` (at least one character, none of them
whitespace or NUL) padded to 8 bytes with `l` spaces on the left and `r` on the right, the
key is exactly `w`, so that fields which differ only in space padding give the same key. -/
theorem C17_symbol_keys_trimmed (p : List Byte) (h8 : 8 ≤ p.length) :
    ∃ s, readSymbol p = some s ∧ s.length ≤ 8 ∧
      (∀ c, s.head? = some c → isSpace c = false) ∧
      (∀ c, s.getLast? = some c → isSpace c = false) ∧
      ∀ (w : Symbol) (l r : Nat), w ≠ [] → (∀ c ∈ w, isSpace c = false ∧ c ≠ 0) →
        p.take 8 = List.replicate l 32 ++ w ++ List.replicate r 32 → s = w := by
  refine ⟨trim (cstring (p.take 8)), by simp [readSymbol, memcpy, h8], ?_,
    trim_head_not_space _, trim_last_not_space _, ?_⟩
  · refine (trim_length_le _).trans (((List.takeWhile_prefix _).length_le).trans ?_)
    simp
  · intro w l r hw hchars hfield
    rw [hfield]
    exact trim_padded l r w hw hchars

/-- Witness of C17: the fields `MSFT____` and `__MSFT__` (`_` a space) both give the key
`MSFT`, and the two `P` messages that carry them accumulate into the one aggregate of
`MSFT`. -/
theorem C17_symbol_keys_trimmed_witness :
    readSymbol (msgTradeMSFTLeftPad.drop 24) = some symMSFT ∧
      readSymbol (msgTradeMSFT1.drop 24) = some symMSFT ∧
      (processAll State.empty [callOf msgTradeMSFT1, callOf msgTradeMSFTLeftPad]).map
          (fun st => st.VWAPaggregator symMSFT) =
        some (some { volume := 20, priceVolume := 40000000 }) := by
  obtain ⟨s, hs, _, _, _, hw⟩ := C17_symbol_keys_trimmed (msgTradeMSFTLeftPad.drop 24)
    (by decide)
  obtain rfl := hw symMSFT 2 2 (by decide) (by decide) (by decide)
  exact ⟨hs, by decide, by decide⟩

/-- C19: ledger and accumulator agree on volume when nothing is broken: for every sequence
of calls with no `B` message, processed from the empty state, and for every symbol `s`, the
volume of the accumulator entry of `s` equals the sum, modulo 2^64, of the `volume` fields
of all records in the history of `s`, an absent aggregate or history counting as 0. -/
theorem C19_ledger_volume_agrees (calls : List Call) (hb : ∀ c ∈ calls, c.inBounds)
    (hnoB : ∀ c ∈ calls, c.msgType ≠ tagB) :
    ∃ st, processAll State.empty calls = some st ∧
      ∀ s : Symbol, (aggOf st s).volume = historyVolume (histOf st s) % 2 ^ 64 := by
  obtain ⟨st, hst⟩ := processAll_total calls State.empty hb
  exact ⟨st, hst, volume_agrees_processAll calls State.empty st hnoB hst (fun _ => rfl)⟩

/-- Witness of C19: the mixed feed (no `B`): `MSFT` has volume 45, the sum of the volumes
10, 30 and 5 of its three records. -/
theorem C19_ledger_volume_agrees_witness :
    ∃ st, processAll State.empty feedMixed = some st ∧
      (aggOf st symMSFT).volume = 45 ∧ historyVolume (histOf st symMSFT) = 45 := by
  obtain ⟨st, h1, _⟩ := C19_ledger_volume_agrees feedMixed (by decide) (by decide)
  have h2 : processAll State.empty feedMixed = some st := h1
  refine ⟨st, h1, ?_⟩
  have e : (processAll State.empty feedMixed).map
      (fun st => ((aggOf st symMSFT).volume, historyVolume (histOf st symMSFT))) =
        some (45, 45) := by decide
  rw [h2] at e
  simpa using e

/-- C16, counterexample: the `P` message of 4294967295 `MSFT` shares at price 4294967295,
processed in the state that the same message leaves from the empty state, takes the
priceVolume of `MSFT` from 18446744065119617025 down to 18446744056529682434. -/
theorem C16_counterexample_wraparound :
    ∃ st1 st2,
      processITCH State.empty msgTradeMax 44 tagP 0 = some st1 ∧
      processITCH st1 msgTradeMax 44 tagP 0 = some st2 ∧
      (aggOf st1 symMSFT).priceVolume = 18446744065119617025 ∧
      (aggOf st2 symMSFT).priceVolume = 18446744056529682434 ∧
      (aggOf st2 symMSFT).priceVolume < (aggOf st1 symMSFT).priceVolume :=
  ⟨_, _, rfl, rfl, by decide, by decide, by decide⟩

/-- C16 (amended): for every state, every message and every symbol `s`, with `dv` and `dpv`
what the message adds to the volume and the priceVolume of `s` (`contribution`; 0 when it
records no trade for `s`): when the 64-bit sum does not wrap, that is the value before
plus `dv` (resp. `dpv`) is below 2^64, the value after is that sum, so it is greater than
or equal to the value before; an absent aggregate counts as 0. -/
theorem C16_aggregate_monotone_without_wrap (st : State) (c : Call) (s : Symbol)
    (hb : c.inBounds) :
    ∃ st', processITCH st c.msg c.msgLen c.msgType c.timestamp = some st' ∧
      ((aggOf st s).volume + (contribution st c s).1 < 2 ^ 64 →
        (aggOf st' s).volume = (aggOf st s).volume + (contribution st c s).1 ∧
          (aggOf st s).volume ≤ (aggOf st' s).volume) ∧
      ((aggOf st s).priceVolume + (contribution st c s).2 < 2 ^ 64 →
        (aggOf st' s).priceVolume = (aggOf st s).priceVolume + (contribution st c s).2 ∧
          (aggOf st s).priceVolume ≤ (aggOf st' s).priceVolume) := by
  obtain ⟨st', h⟩ := processITCH_total st c.msg c.msgLen c.msgType c.timestamp hb
  refine ⟨st', h, ?_, ?_⟩
  · intro hlt
    rcases processITCH_aggOf_contribution st st' c s h with ⟨h1, h2⟩ | h1
    · rw [h1, h2]; exact ⟨rfl, Nat.le_refl _⟩
    · rw [h1]
      show (_ % 2 ^ 64 = _) ∧ _ ≤ _ % 2 ^ 64
      rw [Nat.mod_eq_of_lt hlt]
      exact ⟨rfl, Nat.le_add_right _ _⟩
  · intro hlt
    rcases processITCH_aggOf_contribution st st' c s h with ⟨h1, h2⟩ | h1
    · rw [h1, h2]; exact ⟨rfl, Nat.le_refl _⟩
    · rw [h1]
      show (_ % 2 ^ 64 = _) ∧ _ ≤ _ % 2 ^ 64
      rw [Nat.mod_eq_of_lt hlt]
      exact ⟨rfl, Nat.le_add_right _ _⟩

/-- Witness of C16: the second `MSFT` trade (30 shares at 3000000) after the first takes
the aggregate of `MSFT` from (10, 20000000) up to (40, 110000000). -/
theorem C16_aggregate_monotone_without_wrap_witness :
    contribution stAfterTrade (callOf msgTradeMSFT2) symMSFT = (30, 90000000) ∧
      ∃ st', processITCH stAfterTrade msgTradeMSFT2 44 tagP 0 = some st' ∧
        (aggOf stAfterTrade symMSFT).volume = 10 ∧ (aggOf st' symMSFT).volume = 40 ∧
        (aggOf stAfterTrade symMSFT).priceVolume = 20000000 ∧
        (aggOf st' symMSFT).priceVolume = 110000000 := by
  refine ⟨by decide, ?_⟩
  obtain ⟨st', h, hv, hpv⟩ :=
    C16_aggregate_monotone_without_wrap stAfterTrade (callOf msgTradeMSFT2) symMSFT (by decide)
  exact ⟨st', h, by decide, (hv (by decide)).1.trans (by decide), by decide,
    (hpv (by decide)).1.trans (by decide)⟩

/-- C14: the main loop as a function from the list of framed payloads (each of at least
one byte, a length of 0 ending the stream) to the list of calls of `printVWAP`: for every
non-empty feed whose payload hours are non-decreasing, with `h0` the hour of the first
payload and `h1` the hour of the last, the reports are exactly one per hour
`h0, h0+1, .., h1` in that order (empty hours included, the report of `h1` at the end of
the stream), and the report of hour `h` carries the cumulative accumulator after
processing exactly the payloads whose hour is at most `h`. -/
theorem C14_hourly_reports (feed : List (List Byte)) (hne : feed ≠ [])
    (hframes : ∀ m ∈ feed, m ≠ [])
    (hsorted : List.Pairwise (fun a b => hourOf a ≤ hourOf b) feed) :
    ∃ reports, mainReports feed = some reports ∧
      reports.map Prod.fst =
        List.range' (hourOf (feed.head hne))
          (hourOf (feed.getLast hne) - hourOf (feed.head hne) + 1) ∧
      ∀ r ∈ reports, ∃ st,
        processFeed State.empty (feed.filter (fun m => decide (hourOf m ≤ r.1))) = some st ∧
          r.2 = st.VWAPaggregator := by
  obtain ⟨ls, hls, _, hcur, hfeed, hmap, hrep⟩ := mainLoop_invariant feed hne hframes hsorted
  have hall : ∀ x ∈ feed, hourOf x ≤ hourOf (feed.getLast hne) :=
    hour_le_last feed _ hsorted (List.getLast?_eq_getLast _ hne)
  have h01 : hourOf (feed.head hne) ≤ hourOf (feed.getLast hne) :=
    hall _ (List.head_mem hne)
  refine ⟨ls.reports ++ [(ls.currentHour, ls.tables.VWAPaggregator)], ?_, ?_, ?_⟩
  · simp only [mainReports, hls, Option.map_some']
  · rw [List.map_append, hmap, List.range'_concat, Nat.one_mul, hcur]
    simp only [List.map_cons, List.map_nil]
    rw [Nat.add_sub_cancel' h01]
  · intro r hr
    rcases List.mem_append.mp hr with hr | hr
    · exact hrep r hr
    · simp only [List.mem_singleton] at hr
      subst hr
      refine ⟨ls.tables, ?_, rfl⟩
      have h1 : List.filter (fun m => decide (hourOf m ≤ ls.currentHour)) feed = feed := by
        rw [List.filter_eq_self]
        intro x hx
        simp only [decide_eq_true_eq, hcur]
        exact hall x hx
      simp only [h1]
      exact hfeed

/-- Witness of C14: the input file with a `P` trade of `MSFT` in hour 9 and one in hour 11
frames into these two payloads, and they give three reports, of
hours 9, 10 and 11; those of hours 9 and 10 carry the aggregate (10, 20000000) of the
first trade, that of hour 11 the aggregate (40, 110000000) of both. -/
theorem C14_hourly_reports_witness :
    readFrames streamTwoTrades.length streamTwoTrades = [msgTradeAt9, msgTradeAt11] ∧
    ∃ reports, mainReports [msgTradeAt9, msgTradeAt11] = some reports ∧
      reports.map Prod.fst = [9, 10, 11] ∧
      reports.map (fun r => r.2 symMSFT) =
        [some { volume := 10, priceVolume := 20000000 },
         some { volume := 10, priceVolume := 20000000 },
         some { volume := 40, priceVolume := 110000000 }] := by
  refine ⟨by decide, ?_⟩
  obtain ⟨reports, h1, h2, _⟩ := C14_hourly_reports [msgTradeAt9, msgTradeAt11]
    (by decide) (by decide) (by decide)
  have e : (mainReports [msgTradeAt9, msgTradeAt11]).map
      (fun l => l.map (fun r => r.2 symMSFT)) =
        some [some { volume := 10, priceVolume := 20000000 },
              some { volume := 10, priceVolume := 20000000 },
              some { volume := 40, priceVolume := 110000000 }] := by decide
  rw [h1] at e
  exact ⟨reports, h1, h2.trans (by decide), Option.some.inj e⟩

end ITCH
